import Mathlib

/-!
Shallow embedding of the hierarchical-document merge engine
(`src/util.py`, `src/common_fxn.py`, `src/factory.py`).

Model: an XML element tree lives in a heap (`Heap`), a list of nodes
indexed by position (node id = list index), mirroring Python object
identity: `ET.Element` objects are dict keys by identity, so the
`arxml.parents` dict becomes an association list `Parents` over node
ids.  Mutation of an element becomes a functional update of the heap.
Python strings are Lean `String`s; operations used by the source
(`in`, `str.replace`, slicing at `rfind('/')`) are re-implemented on
`List Char` with Python semantics.  Fallible Python code (assertion
failures, IndexError, TypeError from `'/'.join` on `None`) is modelled
with `Option`: `none` is an uncaught Python exception.
-/

/-- An XML element: tag (namespace-qualified, e.g. `{uri}SHORT-NAME`),
optional text, attribute map, ordered children (node ids). -/
structure XmlNode where
  tag : String
  text : Option String
  attrs : List (String × String)
  children : List Nat
deriving Repr, DecidableEq

/-- The object heap: node id = index.  Ids out of range denote no object;
the Python source never manufactures such handles. -/
abbrev Heap := List XmlNode

def emptyNode : XmlNode := ⟨"", none, [], []⟩

/-- Dereference a node id. -/
def getN (h : Heap) (i : Nat) : XmlNode := h.getD i emptyNode

/-- Functionally update a node (Python: in-place mutation of the object). -/
def setN (h : Heap) (i : Nat) (n : XmlNode) : Heap := h.set i n

/-- The `arxml.parents` dict: child id ↦ parent id.  Lookup takes the most
recent binding, so consing a new pair models `parents[el] = elem`. -/
abbrev Parents := List (Nat × Nat)

/-- Embeds `parents.get(elem, None)` -/
def pget (ps : Parents) (c : Nat) : Option Nat :=
  (ps.find? (fun q => q.1 == c)).map (·.2)

/-- Embeds `parents[el] = elem` (dict store; later bindings shadow earlier ones). -/
def pset (ps : Parents) (c p : Nat) : Parents := (c, p) :: ps

/-- Embeds `elem.get(key)` on the attribute map. -/
def attrGet (n : XmlNode) (k : String) : Option String :=
  (n.attrs.find? (fun q => q.1 == k)).map (·.2)

/-- Embeds `elem.set(key, v)`: overwrite if present, else add. -/
def attrSet (n : XmlNode) (k v : String) : XmlNode :=
  if n.attrs.any (fun q => q.1 == k) then
    { n with attrs := n.attrs.map (fun q => if q.1 == k then (k, v) else q) }
  else
    { n with attrs := n.attrs ++ [(k, v)] }

/-! ### Python string operations (`util.py` helpers) -/

/-- Python `pat in s` (substring containment; `"" in s` is `True`). -/
def listContainsSub (s pat : List Char) : Bool :=
  pat.isPrefixOf s ||
    (match s with
     | [] => false
     | _ :: tail => listContainsSub tail pat)

def pyContains (s pat : String) : Bool := listContainsSub s.data pat.data

/-- Python `s.replace(pat, rep)` on char lists, nonempty `pat`:
leftmost non-overlapping occurrences, left to right.  Structural recursion
on `fuel`; every step strips at least one character of `s`, so calling with
`fuel = s.length` computes the full replacement (at `fuel = 0` the
remaining list is empty). -/
def replaceAllAux (pat rep : List Char) : Nat → List Char → List Char
  | 0, s => s
  | fuel + 1, s =>
    if pat.isPrefixOf s && !pat.isEmpty then
      rep ++ replaceAllAux pat rep fuel (s.drop pat.length)
    else
      match s with
      | [] => []
      | c :: tail => c :: replaceAllAux pat rep fuel tail

/-- Python `s.replace(pat, rep)` (all occurrences; the empty pattern
interleaves `rep` around every character, as in Python). -/
def pyReplace (s pat rep : String) : String :=
  if pat.data.isEmpty then
    String.mk (rep.data ++ s.data.flatMap (fun c => c :: rep.data))
  else
    String.mk (replaceAllAux pat.data rep.data s.data.length s.data)

/-- Suffix of `s` starting at the last `'/'`, when `'/'` occurs. -/
def tailFromLastSlashAux : List Char → Option (List Char)
  | [] => none
  | c :: cs =>
    match tailFromLastSlashAux cs with
    | some r => some r
    | none => if c == '/' then some (c :: cs) else none

/-- Python `s[s.rfind('/'):]` (on failure `rfind` is `-1`, so `s[-1:]`). -/
def pyTailFromLastSlash (s : String) : String :=
  match tailFromLastSlashAux s.data with
  | some r => String.mk r
  | none => String.mk (s.data.drop (s.data.length - 1))

/-- Python `'/'.join`-style join. -/
def joinWith (sep : String) : List String → String
  | [] => ""
  | [x] => x
  | x :: y :: xs => x ++ sep ++ joinWith sep (y :: xs)

/-! ### `util.xml_get_namespace` / `util.is_elem_tag` -/

/-- Embeds `util.xml_get_namespace`: `elem.tag.split('}')[0][1:]` when `'}'`
occurs in the tag, else `''`. -/
def xml_get_namespace (tag : String) : String :=
  if tag.data.contains '}' then
    String.mk ((tag.data.takeWhile (fun c => c ≠ '}')).drop 1)
  else ""

/-- The f-string `f"{{{xml_get_namespace(elem)}}}{t}"` used throughout
`util.py`: brace, namespace of the element whose tag is `base`, brace, `t`. -/
def nsTag (base t : String) : String :=
  "\x7b" ++ xml_get_namespace base ++ "\x7d" ++ t

/-- Embeds `util.is_elem_tag(elem, tag)` for a single tag string. -/
def is_elem_tag (n : XmlNode) (t : String) : Bool :=
  n.tag == nsTag n.tag t

/-! ### `util.xml_elem_get_abs_path` (path resolver) -/

/-- The name contribution of one node: `child = list(elem);
if child and is_elem_tag(child[0], 'SHORT-NAME'): path.insert(0, child[0].text)`.
The inserted value is `child[0].text`, which may be Python `None`. -/
def shortNameEntry (h : Heap) (i : Nat) : List (Option String) :=
  match (getN h i).children with
  | [] => []
  | c :: _ => if is_elem_tag (getN h c) "SHORT-NAME" then [(getN h c).text] else []

/-- Embeds `traverse_parents` from `util.xml_elem_get_abs_path`.  The walk stops
when `parents.get(elem)` has no entry, or when the parent element is falsy
(`if parent:` on an `ET.Element` tests `len(parent) != 0`).  The recursion
is driven by `fuel`; `xml_elem_get_abs_path` passes `ps.length + 1`, which
is enough for every acyclic parent map (a chain shorter than the number of
entries), i.e. for every input on which the Python recursion terminates. -/
def traverse_parents (h : Heap) (ps : Parents) : Nat → Nat → List (Option String)
  | 0, _ => []
  | fuel + 1, i =>
    let here := shortNameEntry h i
    match pget ps i with
    | none => here
    | some p =>
      if (getN h p).children.isEmpty then here
      else traverse_parents h ps fuel p ++ here

/-- Embeds `util.xml_elem_get_abs_path(elem, arxml)`.  Returns `none` when
`'/'.join(path)` would raise a `TypeError` because some `SHORT-NAME` on the
chain has `text = None`.  Note: the Python `assert path is not None` is
vacuous (`path` is always a list), so a missing parent entry mid-walk does
NOT fail — the function silently returns the partial path. -/
def xml_elem_get_abs_path (h : Heap) (ps : Parents) (i : Nat) : Option String :=
  let path := traverse_parents h ps (ps.length + 1) i
  if path.all (·.isSome) then
    some ("/" ++ joinWith "/" (path.map (fun o => o.getD "")))
  else none

/-! ### `util.xml_elem_append` / `util.xml_elem_append_at_index` -/

/-- Python `child` argument of `xml_elem_append`: a single element or a list. -/
inductive ChildArg where
  | single : Nat → ChildArg
  | listArg : List Nat → ChildArg
deriving Repr, DecidableEq

/-- The duck-typed transparent pseudo-container check of
`util.xml_elem_append`: the fixed closed tag list. -/
def isPseudoContainer (n : XmlNode) : Bool :=
  is_elem_tag n "ELEMENTS" ||
  is_elem_tag n "SOCKET-ADDRESSS" ||
  is_elem_tag n "DATA-TRANSFORMATIONS" ||
  is_elem_tag n "TRANSFORMATION-TECHNOLOGYS" ||
  is_elem_tag n "CONNECTION-BUNDLES"

/-- Embeds `elem.append(child)` on the heap. -/
def appendChild (h : Heap) (elem child : Nat) : Heap :=
  setN h elem { getN h elem with children := (getN h elem).children ++ [child] }

/-- Embeds `for el in child: elem.append(el); parents[el] = elem` — the splice /
list loop shared by both branches of `xml_elem_append`. -/
def appendChildren (h : Heap) (ps : Parents) (elem : Nat) (ids : List Nat) :
    Heap × Parents :=
  ids.foldl (fun st el => (appendChild st.1 elem el, pset st.2 el elem)) (h, ps)

/-- Embeds `util.xml_elem_append(elem, child, parents)`.  For the pseudo-container
branch the iterated child list is snapshotted before the loop; this matches
Python whenever `child ≠ elem` (for `child = elem` the Python loop appends
to the list it is iterating and never terminates). -/
def xml_elem_append (h : Heap) (elem : Nat) (child : ChildArg) (ps : Parents) :
    Heap × Parents :=
  match child with
  | .listArg l => appendChildren h ps elem l
  | .single i =>
    if isPseudoContainer (getN h i) then
      appendChildren h ps elem (getN h i).children
    else
      (appendChild h elem i, pset ps i elem)

/-- The slot at which Python `l.insert(i, x)` places `x`: clamps at both
ends, negative indices count from the end. -/
def pyInsertPos (l : List Nat) (i : Int) : Nat :=
  if i < 0 then l.length - (-i).toNat else min i.toNat l.length

/-- Python `l.insert(i, x)`. -/
def pyInsertIdx (l : List Nat) (i : Int) (x : Nat) : List Nat :=
  l.take (pyInsertPos l i) ++ [x] ++ l.drop (pyInsertPos l i)

/-- Embeds `elem.insert(index, child)` on the heap. -/
def insertChild (h : Heap) (elem : Nat) (index : Int) (child : Nat) : Heap :=
  setN h elem
    { getN h elem with children := pyInsertIdx (getN h elem).children index child }

/-- Embeds `util.xml_elem_append_at_index(elem, child, index, parents)`.
`none` models the `TypeError` raised for a list / pseudo-container child. -/
def xml_elem_append_at_index (h : Heap) (elem : Nat) (child : ChildArg)
    (index : Int) (ps : Parents) : Option (Heap × Parents) :=
  match child with
  | .listArg _ => none
  | .single i =>
    if isPseudoContainer (getN h i) then none
    else some (insertChild h elem index i, pset ps i elem)

/-! ### `util.xml_ref_transform_all` (reference relocator, prefix mode) -/

/-- Embeds `util.xml_ref_transform_all(refs, src_path, dst_path)`.  A ref is its
`text` (`Option String`; `none` is Python `None`).  Returns the final texts
plus an ok flag: `false` models the uncaught `AssertionError` (either
`ref.text is None` or `src_path not in ref.text`); refs after the failing
one are left untouched, matching Python's in-place mutation order.
`if ref.text:` skips the assignment for falsy (empty) text. -/
def xml_ref_transform_all (refs : List (Option String)) (src_path dst_path : String) :
    List (Option String) × Bool :=
  match refs with
  | [] => ([], true)
  | r :: rs =>
    match r with
    | none => (r :: rs, false)
    | some t =>
      if pyContains t src_path then
        let newT := if t = "" then t else pyReplace t src_path dst_path
        let rest := xml_ref_transform_all rs src_path dst_path
        (some newT :: rest.1, rest.2)
      else (r :: rs, false)

/-! ### `util.xml_elem_extend` (merge engine) and the clash query -/

/-- Embeds `util.ELEMENTS_NAME_CLASH` — the process-wide strict-clash list,
threaded explicitly. -/
abbrev ClashList := List Bool

/-- Embeds `util.xml_elem_extend_name_clashed()` = `any(ELEMENTS_NAME_CLASH)`. -/
def xml_elem_extend_name_clashed (cl : ClashList) : Bool := cl.any id

/-- Evaluate a caller-supplied name function on each element;
`none` is an uncaught exception inside the lambda (e.g. `el[0]` on a
childless element).  The default `lambda el: el[0].text` is `defaultName`. -/
def namesOf (f : Nat → Option (Option String)) : List Nat → Option (List (Option String))
  | [] => some []
  | x :: xs =>
    match f x, namesOf f xs with
    | some n, some ns => some (n :: ns)
    | _, _ => none

/-- The default key function of `xml_elem_extend`: `lambda el: el[0].text`
(IndexError — outer `none` — on a childless element; the text itself may be
Python `None`). -/
def defaultName (h : Heap) (i : Nat) : Option (Option String) :=
  match (getN h i).children with
  | [] => none
  | c :: _ => some (getN h c).text

/-- Embeds `next((x for x in dst_elems if name == dst_name(x)), None)`:
lazy scan over the destination container's children; a crash in
`dst_name` before a match propagates. -/
def findDuplicate (dName : Nat → Option (Option String)) (name : Option String) :
    List Nat → Option (Option Nat)
  | [] => some none
  | x :: xs =>
    match dName x with
    | none => none
    | some nx => if name = nx then some (some x) else findDuplicate dName name xs

/-- Embeds `path_map[src_path] = dst_path` (Python dict store: update in place,
else append; insertion order preserved). -/
abbrev PathMap := List (String × String)

def dictSet (m : PathMap) (k v : String) : PathMap :=
  if m.any (fun q => q.1 == k) then
    m.map (fun q => if q.1 == k then (k, v) else q)
  else m ++ [(k, v)]

def dictGet (m : PathMap) (k : String) : Option String :=
  (m.find? (fun q => q.1 == k)).map (·.2)

/-- The first loop of `xml_elem_extend`: per source element compute its
key, its pre-merge path, search the destination children for a duplicate
key, and record `src_path ↦ dst_path` (duplicate's current path, or the
destination container's path plus the source path's trailing segment). -/
def extendPathLoop (h : Heap) (srcPs dstPs : Parents) (dstId : Nat)
    (dstChildren : List Nat) (sName dName : Nat → Option (Option String)) :
    List Nat → PathMap → Option PathMap
  | [], acc => some acc
  | e :: rest, acc =>
    match sName e with
    | none => none
    | some name =>
      match xml_elem_get_abs_path h srcPs e with
      | none => none
      | some srcPath =>
        match findDuplicate dName name dstChildren with
        | none => none
        | some dup =>
          let dstPathOpt : Option String :=
            match dup with
            | some d => xml_elem_get_abs_path h dstPs d
            | none =>
              (xml_elem_get_abs_path h dstPs dstId).map
                (fun bp => bp ++ pyTailFromLastSlash srcPath)
          match dstPathOpt with
          | none => none
          | some dstPath =>
            extendPathLoop h srcPs dstPs dstId dstChildren sName dName rest
              (dictSet acc srcPath dstPath)

/-- Result of `xml_elem_extend`: the returned `path_map` plus the mutated
heap, destination parent index and strict-clash list. -/
structure ExtendOut where
  pathMap : PathMap
  heap : Heap
  dstParents : Parents
  clashList : ClashList
deriving Repr, DecidableEq

/-- Embeds `util.xml_elem_extend(src_elems, dst_elems, src_arxml, dst_arxml,
src_name, dst_name, graceful)`.  `dst_elems` is the destination container
element (iterating it yields its children).  `none` is an uncaught Python
exception: a key-function crash, a `TypeError` from `'/'.join` on a `None
SHORT-NAME` text, the `sorted()` `TypeError` when the name intersection
mixes `None` with strings, or (unreachably) `src_elems[0]` on an empty
list.  The intersection is kept as a filtered list: deduplication and
ordering only affect log output, not membership or emptiness. -/
def xml_elem_extend (h : Heap) (srcPs dstPs : Parents) (clashes : ClashList)
    (src_elems : List Nat) (dst_elems : Nat)
    (sName dName : Nat → Option (Option String)) (graceful : Bool) :
    Option ExtendOut :=
  let dstChildren := (getN h dst_elems).children
  match extendPathLoop h srcPs dstPs dst_elems dstChildren sName dName src_elems [] with
  | none => none
  | some pm =>
    match namesOf sName src_elems, namesOf dName dstChildren with
    | some srcNames, some dstNames =>
      let inter := srcNames.filter (fun n => dstNames.contains n)
      if inter.isEmpty then
        let st := xml_elem_append h dst_elems (.listArg src_elems) dstPs
        some ⟨pm, st.1, st.2, clashes⟩
      else
        if inter.contains none && inter.any (·.isSome) then none
        else
          match src_elems with
          | [] => none
          | e0 :: _ =>
            match xml_elem_get_abs_path h srcPs e0,
                  xml_elem_get_abs_path h dstPs dst_elems with
            | some _, some _ =>
              if graceful then
                let diff := src_elems.filter
                  (fun e => !(inter.contains ((sName e).getD none)))
                let st := xml_elem_append h dst_elems (.listArg diff) dstPs
                some ⟨pm, st.1, st.2, clashes⟩
              else
                some ⟨pm, h, dstPs, clashes ++ [true]⟩
            | _, _ => none
    | _, _ => none

/-! ### Descendant search (`ElementTree` `.//` queries) -/

/-- All strict descendants of node `i`, in document (preorder) order —
`elem.findall('.//…')` search space.  `fuel` bounds the depth; callers pass
`h.length`, enough for every acyclic (tree-shaped) heap. -/
def descendants (h : Heap) : Nat → Nat → List Nat
  | 0, _ => []
  | fuel + 1, i => (getN h i).children.flatMap (fun c => c :: descendants h fuel c)

/-- Embeds `util.xml_elem_find(elem, tag)`:
`elem.find('.//' + f"{{{ns(elem)}}}{tag}")` — first matching strict
descendant, namespace taken from the search root's tag. -/
def xml_elem_find (h : Heap) (i : Nat) (tag : String) : Option Nat :=
  (descendants h h.length i).find? (fun c => (getN h c).tag == nsTag (getN h i).tag tag)

/-- Embeds `util.xml_elem_findall(elem, tag)`. -/
def xml_elem_findall (h : Heap) (i : Nat) (tag : String) : List Nat :=
  (descendants h h.length i).filter (fun c => (getN h c).tag == nsTag (getN h i).tag tag)

/-! ### `util.replace_uuid` / `util.ensure_unique_uuids` -/

/-- Embeds `root.findall('.//*[@UUID]')`: strict descendants of the root carrying
a `UUID` attribute, in document order.  Note the root element itself is
NOT part of the result. -/
def findallWithUUID (h : Heap) (root : Nat) : List Nat :=
  (descendants h h.length root).filter (fun c => (attrGet (getN h c) "UUID").isSome)

/-- Embeds `util.replace_uuid(elem)`.  `uuid.uuid4()` is modelled by a
caller-supplied supply `gen` indexed by a counter: the value generated is
`gen ctr` and the counter advances.  Returns the new heap, the value the
Python function returns (`None` when the element has no `UUID` attribute),
and the advanced counter. -/
def replace_uuid (gen : Nat → String) (ctr : Nat) (h : Heap) (i : Nat) :
    Heap × Option String × Nat :=
  match attrGet (getN h i) "UUID" with
  | some _ => (setN h i (attrSet (getN h i) "UUID" (gen ctr)), some (gen ctr), ctr + 1)
  | none => (h, none, ctr)

/-- The traversal loop of `util.ensure_unique_uuids`: `seen` is the key set
of the Python `seen` dict (`Option String`: a keyless `elem.get` result is
Python `None`). -/
def ensureLoop (gen : Nat → String) : Heap → List (Option String) → Nat → List Nat → Heap
  | h, _, _, [] => h
  | h, seen, ctr, i :: rest =>
    let cur := attrGet (getN h i) "UUID"
    if seen.contains cur then
      let r := replace_uuid gen ctr h i
      ensureLoop gen r.1 (r.2.1 :: seen) r.2.2 rest
    else
      ensureLoop gen h (cur :: seen) ctr rest

/-- Embeds `util.ensure_unique_uuids(arxml)`: walk `root.findall('.//*[@UUID]')`
(the snapshot is taken before any mutation; attribute rewrites do not
change the structure), keeping the first occurrence of each value and
replacing subsequent occurrences with freshly generated ones. -/
def ensure_unique_uuids (gen : Nat → String) (h : Heap) (root : Nat) : Heap :=
  ensureLoop gen h [] 0 (findallWithUUID h root)

/-! ### `common_fxn.prepare_ethernet_physical_channel`
(structural invariant enforcer) -/

/-- Embeds `util.xml_get_child_elem_by_tag(elem, tag)`: first DIRECT child with
the namespaced tag; `None` (after a logged error) when absent. -/
def xml_get_child_elem_by_tag (h : Heap) (i : Nat) (tag : String) : Option Nat :=
  (getN h i).children.find? (fun c => (getN h c).tag == nsTag (getN h i).tag tag)

/-- Embeds `common_fxn.xml_get_physical_channel(arxml, ch_type, name)`. -/
def xml_get_physical_channel (h : Heap) (root : Nat) (ch_type name : String) :
    Option Nat :=
  (xml_elem_findall h root ch_type).find? (fun ch =>
    match xml_get_child_elem_by_tag h ch "SHORT-NAME" with
    | some sn => (getN h sn).text == some name
    | none => false)

/-- Embeds `factory.NAMESPACE['ns']`, applied by `factory.xml_elem_create` to
every created tag. -/
def arNS : String := "http://autosar.org/schema/r4.0"

/-- A childless container as produced by the `factory.xml_*_create`
helpers used in the channel schema (`ET.fromstring` leaves the
inter-tag whitespace as `text`). -/
def factory_container (tag : String) : XmlNode :=
  ⟨"\x7b" ++ arNS ++ "\x7d" ++ tag, some "\n    ", [], []⟩

/-- The ordered schema table `channel_schema` of
`prepare_ethernet_physical_channel`: `(tag, factory-or-nil)`. -/
def channel_schema : List (String × Option XmlNode) :=
  [("COMM-CONNECTORS", none),
   ("I-SIGNAL-TRIGGERINGS", some (factory_container "I-SIGNAL-TRIGGERINGS")),
   ("PDU-TRIGGERINGS", some (factory_container "PDU-TRIGGERINGS")),
   ("NETWORK-ENDPOINTS", none),
   ("SO-AD-CONFIG", some (factory_container "SO-AD-CONFIG"))]

/-- The ordered schema table `soad_schema` for the `SO-AD-CONFIG` children. -/
def soad_schema : List (String × Option XmlNode) :=
  [("CONNECTION-BUNDLES", some (factory_container "CONNECTION-BUNDLES")),
   ("SOCKET-ADDRESSS", some (factory_container "SOCKET-ADDRESSS"))]

/-- One iteration of the schema loop in
`prepare_ethernet_physical_channel`.  When the tag is found, the found
element becomes the anchor.  When it is missing and has a factory, a fresh
element is allocated and inserted after the anchor — Python
`insert_index = children.index(last_known_element) + 1 if
last_known_element else 0` tests Element truthiness (`len(el) != 0`), so a
childless anchor falls back to index `0`; an anchor that is not a direct
child raises `ValueError`, caught and turned into a plain append.  When it
is missing and `factory` is `nil`, nothing at all happens: the entry is
skipped and the anchor is left unchanged. -/
def channelStep (chId : Nat) (st : Heap × Parents × Option Nat)
    (tagFac : String × Option XmlNode) : Heap × Parents × Option Nat :=
  let h := st.1
  let ps := st.2.1
  let last := st.2.2
  match xml_elem_find h chId tagFac.1 with
  | some f => (h, ps, some f)
  | none =>
    match tagFac.2 with
    | none => (h, ps, last)
    | some node =>
      let newId := h.length
      let h1 := h ++ [node]
      let truthyLast : Option Nat :=
        match last with
        | some l => if (getN h1 l).children.isEmpty then none else some l
        | none => none
      match truthyLast with
      | none => (insertChild h1 chId 0 newId, pset ps newId chId, some newId)
      | some l =>
        match (getN h1 chId).children.findIdx? (fun c => c == l) with
        | some idx =>
          (insertChild h1 chId (Int.ofNat (idx + 1)) newId, pset ps newId chId, some newId)
        | none => (appendChild h1 chId newId, pset ps newId chId, some newId)

/-- Run one schema table over a container (the `for tag_name, factory_fn
in …` loops of `prepare_ethernet_physical_channel`). -/
def runSchema (chId : Nat) (schema : List (String × Option XmlNode))
    (h : Heap) (ps : Parents) : Heap × Parents :=
  let fin := schema.foldl (channelStep chId) (h, ps, (none : Option Nat))
  (fin.1, fin.2.1)

/-- Embeds `common_fxn.prepare_ethernet_physical_channel(dst_arxml,
dst_eth_physical_channel)`.  `none` models an `AssertionError`: the named
`ETHERNET-PHYSICAL-CHANNEL` not being found, or (unreachably, see the
source comment) `SO-AD-CONFIG` missing after the first pass. -/
def prepare_ethernet_physical_channel (h : Heap) (ps : Parents) (rootId : Nat)
    (name : String) : Option (Heap × Parents) :=
  match xml_get_physical_channel h rootId "ETHERNET-PHYSICAL-CHANNEL" name with
  | none => none
  | some chId =>
    let st1 := runSchema chId channel_schema h ps
    match xml_elem_find st1.1 chId "SO-AD-CONFIG" with
    | none => none
    | some soadId => some (runSchema soadId soad_schema st1.1 st1.2)

/-! ### Engine operations (for the parent-index invariant) -/

/-- One structural mutation routed through the engine: an attach
(`xml_elem_append`), an indexed attach (`xml_elem_append_at_index`), or a
merge (`xml_elem_extend`, which attaches via `xml_elem_append`). -/
inductive EngineOp where
  | appendOp (elem : Nat) (child : ChildArg)
  | appendAtIndexOp (elem : Nat) (child : ChildArg) (index : Int)
  | extendOp (srcPs : Parents) (src_elems : List Nat) (dst : Nat)
      (sName dName : Nat → Option (Option String)) (graceful : Bool)

/-- Apply an engine operation to a document state (heap + parent index).
An operation that raises (`TypeError` of `xml_elem_append_at_index`, any
crash inside `xml_elem_extend`) leaves the state unchanged: every crash in
those functions happens before the first mutation. -/
def applyOp (st : Heap × Parents) : EngineOp → Heap × Parents
  | .appendOp elem child => xml_elem_append st.1 elem child st.2
  | .appendAtIndexOp elem child idx =>
    match xml_elem_append_at_index st.1 elem child idx st.2 with
    | some st2 => st2
    | none => st
  | .extendOp srcPs src dst sN dN g =>
    match xml_elem_extend st.1 srcPs st.2 [] src dst sN dN g with
    | some out => (out.heap, out.dstParents)
    | none => st

/-- The operation's target container is a live object: in Python the
caller holds an actual `ET.Element`, which the id-based model renders as
an in-range heap index. -/
def opValid (n : Nat) : EngineOp → Prop
  | .appendOp elem _ => elem < n
  | .appendAtIndexOp elem _ _ => elem < n
  | .extendOp _ _ dst _ _ _ => dst < n

/-- The parent-index invariant (spec §3 Document): every entry of the
parent index points from a node to an element that actually has it as a
child. -/
def ParentIndexOK (h : Heap) (ps : Parents) : Prop :=
  ∀ c p, pget ps c = some p → c ∈ (getN h p).children

/-! ### Derived definitions used by the verification -/

/-- Embeds `k in path_map` (Python dict key membership). -/
def containsKey (m : PathMap) (k : String) : Bool := m.any (fun q => q.1 == k)

/-- Fold a list of key/value pairs into a path map (the shape of the
`path_map[src_path] = dst_path` loop once each iteration's pair is known). -/
def dictOfEntries (acc : PathMap) (entries : List (String × String)) : PathMap :=
  entries.foldl (fun m kv => dictSet m kv.1 kv.2) acc

/-- The pair `(src_path, dst_path)` computed by one iteration of the first
loop of `xml_elem_extend` for source element `e` (`none` = that iteration
raises). -/
def extendEntry (h : Heap) (srcPs dstPs : Parents) (dstId : Nat)
    (dstChildren : List Nat) (sName dName : Nat → Option (Option String))
    (e : Nat) : Option (String × String) :=
  match sName e with
  | none => none
  | some name =>
    match xml_elem_get_abs_path h srcPs e with
    | none => none
    | some srcPath =>
      match findDuplicate dName name dstChildren with
      | none => none
      | some dup =>
        (match dup with
         | some d => xml_elem_get_abs_path h dstPs d
         | none =>
           (xml_elem_get_abs_path h dstPs dstId).map
             (fun bp => bp ++ pyTailFromLastSlash srcPath)).map
          (fun dp => (srcPath, dp))

/-! ### Concrete documents used to evaluate the functions
(`{n}` stands for an arbitrary namespace URI `n`; the enforcer documents
use the real AUTOSAR namespace because `factory.py` hardcodes it). -/

/-- Merge scenario: source container `/Src` with children named
`P1`, `P2`, `C1`; destination container `/Dst` with one existing child
named `C1`. -/
def mergeHeap : Heap :=
  [⟨"{n}ELEMENTS", none, [], [1, 2, 3]⟩,
   ⟨"{n}PDU", none, [], [4]⟩,
   ⟨"{n}PDU", none, [], [5]⟩,
   ⟨"{n}PDU", none, [], [6]⟩,
   ⟨"{n}SHORT-NAME", some "P1", [], []⟩,
   ⟨"{n}SHORT-NAME", some "P2", [], []⟩,
   ⟨"{n}SHORT-NAME", some "C1", [], []⟩,
   ⟨"{n}AR-PACKAGE", none, [], [8, 0]⟩,
   ⟨"{n}SHORT-NAME", some "Src", [], []⟩,
   ⟨"{n}ELEMENTS", none, [], [10]⟩,
   ⟨"{n}PDU", none, [], [11]⟩,
   ⟨"{n}SHORT-NAME", some "C1", [], []⟩,
   ⟨"{n}AR-PACKAGE", none, [], [13, 9]⟩,
   ⟨"{n}SHORT-NAME", some "Dst", [], []⟩]

def mergeSrcPs : Parents := [(1, 0), (2, 0), (3, 0), (0, 7)]

def mergeDstPs : Parents := [(9, 12), (10, 9)]

/-- Two source siblings that share the name `a` (and hence the pre-merge
path `/Src/a`), merged into an empty destination container `/Dst`. -/
def dupNameHeap : Heap :=
  [⟨"{n}ELEMENTS", none, [], [1, 2]⟩,
   ⟨"{n}PDU", none, [], [3]⟩,
   ⟨"{n}PDU", none, [], [4]⟩,
   ⟨"{n}SHORT-NAME", some "a", [], []⟩,
   ⟨"{n}SHORT-NAME", some "a", [], []⟩,
   ⟨"{n}AR-PACKAGE", none, [], [6, 0]⟩,
   ⟨"{n}SHORT-NAME", some "Src", [], []⟩,
   ⟨"{n}ELEMENTS", none, [], []⟩,
   ⟨"{n}AR-PACKAGE", none, [], [9, 7]⟩,
   ⟨"{n}SHORT-NAME", some "Dst", [], []⟩]

def dupNameSrcPs : Parents := [(1, 0), (2, 0), (0, 5)]

def dupNameDstPs : Parents := [(7, 8)]

/-- Path-resolution scenario with a broken chain: `/Root/Mid/Leaf` where
the parent entry of the `Mid` element is missing (it was attached outside
the engine). -/
def brokenChainHeap : Heap :=
  [⟨"{n}ROOT", none, [], [3, 1]⟩,
   ⟨"{n}MID", none, [], [4, 2]⟩,
   ⟨"{n}LEAF", none, [], [5]⟩,
   ⟨"{n}SHORT-NAME", some "Root", [], []⟩,
   ⟨"{n}SHORT-NAME", some "Mid", [], []⟩,
   ⟨"{n}SHORT-NAME", some "Leaf", [], []⟩]

/-- Parent index missing the `Mid ↦ Root` link. -/
def brokenChainPs : Parents := [(2, 1)]

/-- Complete parent index for `brokenChainHeap`. -/
def fullChainPs : Parents := [(2, 1), (1, 0)]

/-- Strict-clash scenario in which a node already sits at the path the
path map assigns to a non-colliding source node: destination container
`/C` holds one anonymous child (first child `FOO`, key `Y`) whose own
child is named `X`, so that node's path is `/C/X`; source node `8` is
named `X` (non-colliding), source node `10` is named `Y` (colliding). -/
def occupiedHeap : Heap :=
  [⟨"{n}ELEMENTS", none, [], [2]⟩,
   ⟨"{n}UNUSED", none, [], []⟩,
   ⟨"{n}ITEM", none, [], [5, 6]⟩,
   ⟨"{n}AR-PACKAGE", none, [], [4, 0]⟩,
   ⟨"{n}SHORT-NAME", some "C", [], []⟩,
   ⟨"{n}FOO", some "Y", [], []⟩,
   ⟨"{n}SUB", none, [], [7]⟩,
   ⟨"{n}SHORT-NAME", some "X", [], []⟩,
   ⟨"{n}THING", none, [], [9]⟩,
   ⟨"{n}SHORT-NAME", some "X", [], []⟩,
   ⟨"{n}THING", none, [], [11]⟩,
   ⟨"{n}SHORT-NAME", some "Y", [], []⟩]

def occupiedDstPs : Parents := [(0, 3), (2, 0), (6, 2)]

def occupiedSrcPs : Parents := []

/-- Identity scenario: the root element itself carries `UUID = "u"` and so
does its only child. -/
def rootUuidHeap : Heap :=
  [⟨"{n}AUTOSAR", none, [("UUID", "u")], [1]⟩,
   ⟨"{n}X", none, [("UUID", "u")], []⟩]

/-- Identity scenario entirely below the root: two children both carrying
`UUID = "u"`. -/
def childUuidHeap : Heap :=
  [⟨"{n}AUTOSAR", none, [], [1, 2]⟩,
   ⟨"{n}X", none, [("UUID", "u")], []⟩,
   ⟨"{n}Y", none, [("UUID", "u")], []⟩]

/-- A deterministic stand-in for the `uuid.uuid4()` supply. -/
def freshGen (k : Nat) : String := "fresh-" ++ toString k

/-- Enforcer scenario: an `ETHERNET-PHYSICAL-CHANNEL` (real AUTOSAR
namespace) that has every schema container except the required,
non-synthesizable `COMM-CONNECTORS`. -/
def channelHeap : Heap :=
  [⟨"\x7b" ++ arNS ++ "\x7d" ++ "AUTOSAR", none, [], [1]⟩,
   ⟨"\x7b" ++ arNS ++ "\x7d" ++ "ETHERNET-PHYSICAL-CHANNEL", none, [], [2, 3, 4, 5, 6]⟩,
   ⟨"\x7b" ++ arNS ++ "\x7d" ++ "SHORT-NAME", some "Ch", [], []⟩,
   ⟨"\x7b" ++ arNS ++ "\x7d" ++ "I-SIGNAL-TRIGGERINGS", none, [], []⟩,
   ⟨"\x7b" ++ arNS ++ "\x7d" ++ "PDU-TRIGGERINGS", none, [], []⟩,
   ⟨"\x7b" ++ arNS ++ "\x7d" ++ "NETWORK-ENDPOINTS", none, [], []⟩,
   ⟨"\x7b" ++ arNS ++ "\x7d" ++ "SO-AD-CONFIG", none, [], [7, 8]⟩,
   ⟨"\x7b" ++ arNS ++ "\x7d" ++ "CONNECTION-BUNDLES", none, [], []⟩,
   ⟨"\x7b" ++ arNS ++ "\x7d" ++ "SOCKET-ADDRESSS", none, [], []⟩]

/-- Small attach scenario: a pseudo-container `ELEMENTS` holding two
items, and an ordinary node, to be attached under node `0`. -/
def attachHeap : Heap :=
  [⟨"{n}CONTAINER", none, [], []⟩,
   ⟨"{n}ELEMENTS", none, [], [2, 3]⟩,
   ⟨"{n}ITEM", none, [], []⟩,
   ⟨"{n}ITEM", none, [], []⟩,
   ⟨"{n}PLAIN", none, [], []⟩]

/-- Reference texts for the relocator scenarios. -/
def refListOk : List (Option String) :=
  [some "/Old/Sub/Leaf", some "/Old/Sub/Other"]

def refListBad : List (Option String) :=
  [some "/Old/Sub/Leaf", some "/Elsewhere/Leaf", some "/Old/Sub/Tail"]

/-! ## Helper lemmas -/

theorem length_setN (h : Heap) (i : Nat) (n : XmlNode) :
    (setN h i n).length = h.length := by
  simp [setN]

theorem getN_setN_self (h : Heap) (i : Nat) (n : XmlNode) (hi : i < h.length) :
    getN (setN h i n) i = n := by
  simp [getN, setN, List.getD, List.getElem?_set_self hi]

theorem getN_setN_ne (h : Heap) (i j : Nat) (n : XmlNode) (hne : i ≠ j) :
    getN (setN h i n) j = getN h j := by
  simp [getN, setN, List.getD, List.getElem?_set_ne hne]

theorem pget_pset_self (ps : Parents) (c p : Nat) : pget (pset ps c p) c = some p := by
  simp [pget, pset, List.find?]

theorem pget_pset_ne (ps : Parents) (c p c' : Nat) (hne : c' ≠ c) :
    pget (pset ps c p) c' = pget ps c' := by
  have hb : (c == c') = false := by
    simp only [beq_eq_false_iff_ne, ne_eq]
    exact fun he => hne he.symm
  simp [pget, pset, List.find?, hb]

theorem appendChild_length (h : Heap) (elem child : Nat) :
    (appendChild h elem child).length = h.length := by
  simp [appendChild, length_setN]

theorem getN_appendChild_self (h : Heap) (elem child : Nat) (hi : elem < h.length) :
    getN (appendChild h elem child) elem =
      { getN h elem with children := (getN h elem).children ++ [child] } := by
  simp [appendChild, getN_setN_self _ _ _ hi]

theorem getN_appendChild_ne (h : Heap) (elem child j : Nat) (hne : elem ≠ j) :
    getN (appendChild h elem child) j = getN h j := by
  simp [appendChild, getN_setN_ne _ _ _ _ hne]

theorem appendChildren_nil (h : Heap) (ps : Parents) (elem : Nat) :
    appendChildren h ps elem [] = (h, ps) := rfl

theorem appendChildren_cons (h : Heap) (ps : Parents) (elem e : Nat) (rest : List Nat) :
    appendChildren h ps elem (e :: rest) =
      appendChildren (appendChild h elem e) (pset ps e elem) elem rest := rfl

theorem appendChildren_length (h : Heap) (ps : Parents) (elem : Nat) (ids : List Nat) :
    ((appendChildren h ps elem ids).1).length = h.length := by
  induction ids generalizing h ps with
  | nil => rfl
  | cons e rest ih =>
    rw [appendChildren_cons, ih, appendChild_length]

theorem getN_appendChildren_self (h : Heap) (ps : Parents) (elem : Nat) (ids : List Nat)
    (hi : elem < h.length) :
    getN (appendChildren h ps elem ids).1 elem =
      { getN h elem with children := (getN h elem).children ++ ids } := by
  induction ids generalizing h ps with
  | nil => simp [appendChildren_nil]
  | cons e rest ih =>
    rw [appendChildren_cons]
    rw [ih (appendChild h elem e) (pset ps e elem)
      (by rw [appendChild_length]; exact hi)]
    rw [getN_appendChild_self _ _ _ hi]
    simp

theorem getN_appendChildren_ne (h : Heap) (ps : Parents) (elem : Nat) (ids : List Nat)
    (j : Nat) (hne : elem ≠ j) :
    getN (appendChildren h ps elem ids).1 j = getN h j := by
  induction ids generalizing h ps with
  | nil => rfl
  | cons e rest ih =>
    rw [appendChildren_cons, ih, getN_appendChild_ne _ _ _ _ hne]

theorem pget_appendChildren_not_mem (h : Heap) (ps : Parents) (elem : Nat)
    (ids : List Nat) (e : Nat) (he : e ∉ ids) :
    pget (appendChildren h ps elem ids).2 e = pget ps e := by
  induction ids generalizing h ps with
  | nil => rfl
  | cons x rest ih =>
    rw [appendChildren_cons]
    rw [ih _ _ (fun hmem => he (List.mem_cons_of_mem _ hmem))]
    exact pget_pset_ne _ _ _ _ (fun hx => he (hx ▸ List.mem_cons_self _ _))

theorem pget_appendChildren_mem (h : Heap) (ps : Parents) (elem : Nat)
    (ids : List Nat) (e : Nat) (he : e ∈ ids) :
    pget (appendChildren h ps elem ids).2 e = some elem := by
  induction ids generalizing h ps with
  | nil => cases he
  | cons x rest ih =>
    rw [appendChildren_cons]
    by_cases hr : e ∈ rest
    · exact ih _ _ hr
    · have hex : e = x := by
        rcases List.mem_cons.mp he with h1 | h1
        · exact h1
        · exact absurd h1 hr
      rw [pget_appendChildren_not_mem _ _ _ _ _ hr, hex]
      exact pget_pset_self _ _ _

/-! ## C5 — path resolver on a broken parent chain -/

/-- C5: the claim says a chain of parent-index entries that does not reach
the document root makes `xml_elem_get_abs_path` fail.  It does not: with
the `Mid ↦ Root` ancestor link missing mid-walk (`pget brokenChainPs 1 =
none`), the resolver silently returns the truncated path `/Mid/Leaf`
instead of raising — the guarding `assert path is not None` is vacuously
true because `path` is always a list.  With the complete index the same
node resolves to `/Root/Mid/Leaf`. -/
theorem c5_broken_chain_returns_partial_path :
    pget brokenChainPs 1 = none ∧
    xml_elem_get_abs_path brokenChainHeap brokenChainPs 2 = some "/Mid/Leaf" ∧
    xml_elem_get_abs_path brokenChainHeap fullChainPs 2 = some "/Root/Mid/Leaf" :=
  ⟨by decide, by decide, by decide⟩

/-! ## C3 — prefix substitution rewrites every occurrence -/

/-- C3 (counterexample to the claim as stated): on the reference text
`/Old/Sub/Leaf/Old/Sub` with old path `/Old/Sub` and new path
`/New/Other`, `xml_ref_transform_all` rewrites BOTH occurrences, giving
`/New/Other/Leaf/New/Other`; the claim's "later occurrences are left as
they were" would require `/New/Other/Leaf/Old/Sub`. -/
theorem c3_second_occurrence_also_rewritten :
    (xml_ref_transform_all [some "/Old/Sub/Leaf/Old/Sub"] "/Old/Sub" "/New/Other").1 =
      [some "/New/Other/Leaf/New/Other"] ∧
    (some "/New/Other/Leaf/New/Other" : Option String) ≠
      some "/New/Other/Leaf/Old/Sub" :=
  ⟨by decide, by decide⟩

/-- C3 (amended): for reference fields whose text contains the old path,
`xml_ref_transform_all` succeeds and rewrites EVERY (leftmost,
non-overlapping) occurrence of the old path — Python `str.replace`
semantics, embodied by `pyReplace` — not only the first one; empty (falsy)
texts are left as they are by the `if ref.text:` guard. -/
theorem c3_transform_rewrites_all_occurrences (refs : List (Option String))
    (src dst : String)
    (hall : ∀ r ∈ refs, r.isSome = true ∧ pyContains (r.getD "") src = true) :
    xml_ref_transform_all refs src dst =
      (refs.map (Option.map (fun t => if t = "" then t else pyReplace t src dst)),
       true) := by
  induction refs with
  | nil => rfl
  | cons r rs ih =>
    have hr := hall r (List.mem_cons_self _ _)
    match r, hr with
    | some t, ⟨_, hc⟩ =>
      have hc' : pyContains t src = true := by simpa using hc
      have ihr := ih (fun r hmem => hall r (List.mem_cons_of_mem _ hmem))
      simp [xml_ref_transform_all, hc', ihr]

/-- C3 witness: the amended theorem applied to the two-reference list
`refListOk` at old path `/Old/Sub`, new path `/New/Other`. -/
theorem c3_transform_rewrites_all_occurrences_witness :
    xml_ref_transform_all refListOk "/Old/Sub" "/New/Other" =
      (refListOk.map (Option.map
        (fun t => if t = "" then t else pyReplace t "/Old/Sub" "/New/Other")),
       true) :=
  c3_transform_rewrites_all_occurrences refListOk "/Old/Sub" "/New/Other" (by decide)

/-! ## C4 — missing prefix aborts and leaves the reference untouched -/

/-- C4: if every reference before position `pre.length` contains the old
path but the reference there (`some t`) does not, `xml_ref_transform_all`
fails (the `assert src_path in ref.text` — the spec's
`PrefixNotFoundError` — makes the ok-flag `false` rather than silently
skipping), and that reference and everything after it are left exactly as
they were. -/
theorem c4_missing_prefix_fails_text_unmodified (pre post : List (Option String))
    (t src dst : String)
    (hpre : ∀ r ∈ pre, r.isSome = true ∧ pyContains (r.getD "") src = true)
    (hmiss : pyContains t src = false) :
    (xml_ref_transform_all (pre ++ some t :: post) src dst).2 = false ∧
    (xml_ref_transform_all (pre ++ some t :: post) src dst).1.drop pre.length =
      some t :: post := by
  induction pre with
  | nil => simp [xml_ref_transform_all, hmiss]
  | cons r rs ih =>
    have hr := hpre r (List.mem_cons_self _ _)
    match r, hr with
    | some u, ⟨_, hc⟩ =>
      have hc' : pyContains u src = true := by simpa using hc
      have ihr := ih (fun r hmem => hpre r (List.mem_cons_of_mem _ hmem))
      simp [xml_ref_transform_all, hc', ihr]

/-- C4 witness: the list `refListBad` whose second reference text
`/Elsewhere/Leaf` does not contain `/Old/Sub`. -/
theorem c4_missing_prefix_fails_text_unmodified_witness :
    (xml_ref_transform_all ([some "/Old/Sub/Leaf"] ++ some "/Elsewhere/Leaf" ::
        [some "/Old/Sub/Tail"]) "/Old/Sub" "/New/Other").2 = false ∧
    (xml_ref_transform_all ([some "/Old/Sub/Leaf"] ++ some "/Elsewhere/Leaf" ::
        [some "/Old/Sub/Tail"]) "/Old/Sub" "/New/Other").1.drop 1 =
      some "/Elsewhere/Leaf" :: [some "/Old/Sub/Tail"] :=
  c4_missing_prefix_fails_text_unmodified [some "/Old/Sub/Leaf"]
    [some "/Old/Sub/Tail"] "/Elsewhere/Leaf" "/Old/Sub" "/New/Other"
    (by decide) (by decide)

/-! ## C8 — attach primitive: pseudo-container splicing -/

/-- C8: through `xml_elem_append`, (a) a plain Python list is spliced
element by element, each re-parented to the true parent `elem`; (b) a
child whose tag is in the fixed closed pseudo-container list
(`isPseudoContainer`) has each of its own children appended directly to
`elem`, and the parent index maps every spliced child to `elem` — never to
the pseudo-container; (c) any other child is appended as a single node
with a single parent-index update. -/
theorem c8_append_splices_pseudo_containers (h : Heap) (ps : Parents) (elem : Nat)
    (helem : elem < h.length) :
    (∀ l : List Nat,
      (getN (xml_elem_append h elem (.listArg l) ps).1 elem).children =
        (getN h elem).children ++ l ∧
      (∀ g ∈ l, pget (xml_elem_append h elem (.listArg l) ps).2 g = some elem)) ∧
    (∀ i : Nat, isPseudoContainer (getN h i) = true →
      (getN (xml_elem_append h elem (.single i) ps).1 elem).children =
        (getN h elem).children ++ (getN h i).children ∧
      (∀ g ∈ (getN h i).children,
        pget (xml_elem_append h elem (.single i) ps).2 g = some elem)) ∧
    (∀ i : Nat, isPseudoContainer (getN h i) = false →
      (getN (xml_elem_append h elem (.single i) ps).1 elem).children =
        (getN h elem).children ++ [i] ∧
      (xml_elem_append h elem (.single i) ps).2 = pset ps i elem) := by
  refine ⟨?_, ?_, ?_⟩
  · intro l
    constructor
    · simpa [xml_elem_append] using
        congrArg XmlNode.children (getN_appendChildren_self h ps elem l helem)
    · intro g hg
      simpa [xml_elem_append] using pget_appendChildren_mem h ps elem l g hg
  · intro i hps
    constructor
    · simpa [xml_elem_append, hps] using
        congrArg XmlNode.children
          (getN_appendChildren_self h ps elem (getN h i).children helem)
    · intro g hg
      simpa [xml_elem_append, hps] using
        pget_appendChildren_mem h ps elem (getN h i).children g hg
  · intro i hps
    constructor
    · simpa [xml_elem_append, hps] using
        congrArg XmlNode.children (getN_appendChild_self h elem i helem)
    · simp [xml_elem_append, hps]

/-- C8 witness: attaching the pseudo-container `ELEMENTS` (node 1 of
`attachHeap`) under node 0 splices its two items in and re-parents them
to node 0. -/
theorem c8_append_splices_pseudo_containers_witness :
    (getN (xml_elem_append attachHeap 0 (.single 1) []).1 0).children = [2, 3] ∧
    pget (xml_elem_append attachHeap 0 (.single 1) []).2 2 = some 0 := by
  have hmain :=
    (c8_append_splices_pseudo_containers attachHeap [] 0 (by decide)).2.1 1 (by decide)
  refine ⟨?_, hmain.2 2 (by decide)⟩
  rw [hmain.1]
  decide

/-! ## C6 — enforcer: required but non-synthesizable containers -/

/-- C6 (counterexample to the claim as stated): `COMM-CONNECTORS` is in
the channel schema table with `factory = nil`, it is absent from the
channel of `channelHeap`, yet `prepare_ethernet_physical_channel`
completes without any error and leaves the document unchanged — no
`MissingRequiredContainer` is raised and the merge step is not aborted. -/
theorem c6_missing_required_container_not_fatal :
    ("COMM-CONNECTORS", (none : Option XmlNode)) ∈ channel_schema ∧
    xml_elem_find channelHeap 1 "COMM-CONNECTORS" = none ∧
    prepare_ethernet_physical_channel channelHeap [] 0 "Ch" =
      some (channelHeap, []) :=
  ⟨by decide, by decide, by decide⟩

/-- C6 (amended): a schema-table entry whose factory is `nil` and whose
tag is absent from the destination subtree is simply skipped by the
enforcer — the state and the insertion anchor are returned unchanged and
nothing is raised; only the absence of the `ETHERNET-PHYSICAL-CHANNEL`
itself aborts the step. -/
theorem c6_nil_factory_entry_skipped (h : Heap) (ps : Parents) (chId : Nat)
    (last : Option Nat) (tag : String)
    (hmiss : xml_elem_find h chId tag = none) :
    channelStep chId (h, ps, last) (tag, none) = (h, ps, last) := by
  simp [channelStep, hmiss]

/-- C6 witness: the skipped `COMM-CONNECTORS` entry on `channelHeap`. -/
theorem c6_nil_factory_entry_skipped_witness :
    channelStep 1 (channelHeap, [], none) ("COMM-CONNECTORS", none) =
      (channelHeap, [], none) :=
  c6_nil_factory_entry_skipped channelHeap [] 1 none "COMM-CONNECTORS" (by decide)

/-! ## C7 helper lemmas — the uuid traversal -/

theorem findMap_setAssoc (l : List (String × String)) (k v : String)
    (hany : l.any (fun q => q.1 == k) = true) :
    (((l.map (fun q => if q.1 == k then (k, v) else q)).find?
        (fun q => q.1 == k)).map (·.2)) = some v := by
  induction l with
  | nil => simp at hany
  | cons q qs ih =>
    by_cases hq : (q.1 == k) = true
    · simp [List.find?, hq]
    · have hq' : (q.1 == k) = false := by
        cases hb : (q.1 == k) with
        | true => exact absurd hb hq
        | false => rfl
      have hany' : qs.any (fun q => q.1 == k) = true := by
        simpa [List.any_cons, hq'] using hany
      simpa [List.find?, hq'] using ih hany'

theorem findMap_appendAssoc (l : List (String × String)) (k v : String)
    (hnone : l.any (fun q => q.1 == k) = false) :
    (((l ++ [(k, v)]).find? (fun q => q.1 == k)).map (·.2)) = some v := by
  induction l with
  | nil => simp [List.find?]
  | cons q qs ih =>
    have hq : (q.1 == k) = false := by
      by_cases hb : (q.1 == k) = true
      · simp [List.any_cons, hb] at hnone
      · cases hb2 : (q.1 == k) with
        | true => exact absurd hb2 hb
        | false => rfl
    have hqs : qs.any (fun q => q.1 == k) = false := by
      simpa [List.any_cons, hq] using hnone
    simpa [List.find?, hq] using ih hqs

theorem attrGet_attrSet_self (n : XmlNode) (k v : String) :
    attrGet (attrSet n k v) k = some v := by
  unfold attrGet attrSet
  by_cases hany : n.attrs.any (fun q => q.1 == k) = true
  · simpa [hany] using findMap_setAssoc n.attrs k v hany
  · have hnone : n.attrs.any (fun q => q.1 == k) = false := by
      cases hb : n.attrs.any (fun q => q.1 == k) with
      | true => exact absurd hb hany
      | false => rfl
    simpa [hnone] using findMap_appendAssoc n.attrs k v hnone

/-- Mutation confined to the processed elements: a node not in the work
list keeps its record. -/
theorem ensureLoop_getN_not_mem (gen : Nat → String) (rest : List Nat)
    (h : Heap) (seen : List (Option String)) (ctr : Nat) (j : Nat)
    (hj : j ∉ rest) :
    getN (ensureLoop gen h seen ctr rest) j = getN h j := by
  induction rest generalizing h seen ctr with
  | nil => rfl
  | cons i rest ih =>
    have hji : j ≠ i := fun he => hj (he ▸ List.mem_cons_self _ _)
    have hjr : j ∉ rest := fun hm => hj (List.mem_cons_of_mem _ hm)
    rw [ensureLoop]
    by_cases hc : seen.contains (attrGet (getN h i) "UUID") = true
    · rw [if_pos hc, ih _ _ _ hjr]
      cases hag : attrGet (getN h i) "UUID" with
      | some u => simp [replace_uuid, hag, getN_setN_ne _ _ _ _ (Ne.symm hji)]
      | none => simp [replace_uuid, hag]
    · rw [if_neg hc]
      exact ih _ _ _ hjr

/-- Core invariant of the uuid traversal: processed elements end with
values that are pairwise distinct and outside the incoming `seen` set,
provided the generated values are fresh for the whole run. -/
theorem ensureLoop_distinct (gen : Nat → String) (rest : List Nat)
    (h : Heap) (seen : List (Option String)) (ctr : Nat)
    (hnd : rest.Nodup)
    (hvalid : ∀ i ∈ rest, i < h.length)
    (hsome : ∀ i ∈ rest, (attrGet (getN h i) "UUID").isSome = true)
    (hfresh : ∀ n, ctr ≤ n → n < ctr + rest.length →
      seen.contains (some (gen n)) = false ∧
      ∀ i ∈ rest, attrGet (getN h i) "UUID" ≠ some (gen n))
    (hinj : ∀ m n, ctr ≤ m → m < ctr + rest.length → ctr ≤ n →
      n < ctr + rest.length → m ≠ n → gen m ≠ gen n) :
    (∀ i ∈ rest,
      (attrGet (getN (ensureLoop gen h seen ctr rest) i) "UUID").isSome = true ∧
      seen.contains (attrGet (getN (ensureLoop gen h seen ctr rest) i) "UUID") = false) ∧
    (∀ i ∈ rest, ∀ j ∈ rest, i ≠ j →
      attrGet (getN (ensureLoop gen h seen ctr rest) i) "UUID" ≠
      attrGet (getN (ensureLoop gen h seen ctr rest) j) "UUID") := by
  induction rest generalizing h seen ctr with
  | nil =>
    exact ⟨fun i hi => absurd hi (List.not_mem_nil i),
           fun i hi => absurd hi (List.not_mem_nil i)⟩
  | cons i rest ih =>
    obtain ⟨hi_not, hnd'⟩ := List.nodup_cons.mp hnd
    obtain ⟨u, hu⟩ :=
      Option.isSome_iff_exists.mp (hsome i (List.mem_cons_self _ _))
    have hvi : i < h.length := hvalid i (List.mem_cons_self _ _)
    have hne_rest : ∀ x ∈ rest, x ≠ i :=
      fun x hx he => hi_not (he ▸ hx)
    by_cases hc : seen.contains (attrGet (getN h i) "UUID") = true
    · -- duplicate: the head is replaced with `gen ctr`
      have hrw : ensureLoop gen h seen ctr (i :: rest) =
          ensureLoop gen (setN h i (attrSet (getN h i) "UUID" (gen ctr)))
            (some (gen ctr) :: seen) (ctr + 1) rest := by
        rw [ensureLoop, if_pos hc]
        simp [replace_uuid, hu]
      set h1 := setN h i (attrSet (getN h i) "UUID" (gen ctr)) with hh1
      have hlen1 : h1.length = h.length := length_setN _ _ _
      have hgetrest : ∀ x ∈ rest, getN h1 x = getN h x := fun x hx =>
        getN_setN_ne _ _ _ _ (fun he => (hne_rest x hx) he.symm)
      have hgeti : getN h1 i = attrSet (getN h i) "UUID" (gen ctr) :=
        getN_setN_self _ _ _ hvi
      have hfini : attrGet (getN (ensureLoop gen h1 (some (gen ctr) :: seen)
          (ctr + 1) rest) i) "UUID" = some (gen ctr) := by
        rw [ensureLoop_getN_not_mem gen rest h1 _ _ i hi_not, hgeti,
          attrGet_attrSet_self]
      have hctr_lt : ctr < ctr + (i :: rest).length :=
        Nat.lt_add_of_pos_right (by simp)
      have ihr := ih h1 (some (gen ctr) :: seen) (ctr + 1) hnd'
        (fun x hx => hlen1 ▸ hvalid x (List.mem_cons_of_mem _ hx))
        (fun x hx => (hgetrest x hx) ▸ hsome x (List.mem_cons_of_mem _ hx))
        (fun n hn1 hn2 => by
          have hn0 : ctr ≤ n := Nat.le_of_succ_le hn1
          have hnlt : n < ctr + (i :: rest).length := by
            simp only [List.length_cons]
            omega
          have hgenne : gen n ≠ gen ctr := by
            have := hinj n ctr hn0 hnlt (Nat.le_refl ctr) hctr_lt
            exact this (by omega)
          refine ⟨?_, ?_⟩
          · show ((some (gen n) == some (gen ctr)) || seen.contains (some (gen n))) = false
            have h1b : (some (gen n) == some (gen ctr)) = false := by
              apply beq_eq_false_iff_ne.mpr
              simp [hgenne]
            rw [h1b, (hfresh n hn0 hnlt).1]
            rfl
          · intro x hx
            rw [hgetrest x hx]
            exact (hfresh n hn0 hnlt).2 x (List.mem_cons_of_mem _ hx))
        (fun m n hm1 hm2 hn1 hn2 hmn => by
          apply hinj m n (Nat.le_of_succ_le hm1) (by simp only [List.length_cons]; omega)
            (Nat.le_of_succ_le hn1) (by simp only [List.length_cons]; omega) hmn)
      rw [hrw]
      constructor
      · intro x hx
        rcases List.mem_cons.mp hx with rfl | hx'
        · refine ⟨by rw [hfini]; rfl, ?_⟩
          rw [hfini]
          exact (hfresh ctr (Nat.le_refl _) hctr_lt).1
        · obtain ⟨hs, hcont⟩ := ihr.1 x hx'
          refine ⟨hs, ?_⟩
          have : ((attrGet (getN (ensureLoop gen h1 (some (gen ctr) :: seen)
              (ctr + 1) rest) x) "UUID" == some (gen ctr)) ||
              seen.contains (attrGet (getN (ensureLoop gen h1
                (some (gen ctr) :: seen) (ctr + 1) rest) x) "UUID")) = false := hcont
          exact (Bool.or_eq_false_iff.mp this).2
      · intro x hx y hy hxy
        rcases List.mem_cons.mp hx with rfl | hx' <;>
          rcases List.mem_cons.mp hy with rfl | hy'
        · exact absurd rfl hxy
        · obtain ⟨hs, hcont⟩ := ihr.1 y hy'
          have hne : (attrGet (getN (ensureLoop gen h1 (some (gen ctr) :: seen)
              (ctr + 1) rest) y) "UUID" == some (gen ctr)) = false :=
            (Bool.or_eq_false_iff.mp hcont).1
          rw [hfini]
          exact fun he => ne_of_beq_false hne he.symm
        · obtain ⟨hs, hcont⟩ := ihr.1 x hx'
          have hne : (attrGet (getN (ensureLoop gen h1 (some (gen ctr) :: seen)
              (ctr + 1) rest) x) "UUID" == some (gen ctr)) = false :=
            (Bool.or_eq_false_iff.mp hcont).1
          rw [hfini]
          exact ne_of_beq_false hne
        · exact ihr.2 x hx' y hy' hxy
    · -- first occurrence: the head keeps its value
      have hcf : seen.contains (attrGet (getN h i) "UUID") = false := by
        cases hb : seen.contains (attrGet (getN h i) "UUID") with
        | true => exact absurd hb hc
        | false => rfl
      have hrw : ensureLoop gen h seen ctr (i :: rest) =
          ensureLoop gen h (attrGet (getN h i) "UUID" :: seen) ctr rest := by
        rw [ensureLoop, if_neg hc]
      have hfini : attrGet (getN (ensureLoop gen h
          (attrGet (getN h i) "UUID" :: seen) ctr rest) i) "UUID" =
          attrGet (getN h i) "UUID" := by
        rw [ensureLoop_getN_not_mem gen rest h _ _ i hi_not]
      have ihr := ih h (attrGet (getN h i) "UUID" :: seen) ctr hnd'
        (fun x hx => hvalid x (List.mem_cons_of_mem _ hx))
        (fun x hx => hsome x (List.mem_cons_of_mem _ hx))
        (fun n hn1 hn2 => by
          have hnlt : n < ctr + (i :: rest).length := by
            simp only [List.length_cons]
            omega
          refine ⟨?_, ?_⟩
          · show ((some (gen n) == attrGet (getN h i) "UUID") ||
              seen.contains (some (gen n))) = false
            have h1b : (some (gen n) == attrGet (getN h i) "UUID") = false := by
              apply beq_eq_false_iff_ne.mpr
              intro he
              exact (hfresh n hn1 hnlt).2 i (List.mem_cons_self _ _) he.symm
            rw [h1b, (hfresh n hn1 hnlt).1]
            rfl
          · exact fun x hx => (hfresh n hn1 hnlt).2 x (List.mem_cons_of_mem _ hx))
        (fun m n hm1 hm2 hn1 hn2 hmn => by
          apply hinj m n hm1 (by simp only [List.length_cons]; omega)
            hn1 (by simp only [List.length_cons]; omega) hmn)
      rw [hrw]
      constructor
      · intro x hx
        rcases List.mem_cons.mp hx with rfl | hx'
        · exact ⟨by rw [hfini]; exact hsome x (List.mem_cons_self _ _), by rw [hfini]; exact hcf⟩
        · obtain ⟨hs, hcont⟩ := ihr.1 x hx'
          exact ⟨hs, (Bool.or_eq_false_iff.mp hcont).2⟩
      · intro x hx y hy hxy
        rcases List.mem_cons.mp hx with rfl | hx' <;>
          rcases List.mem_cons.mp hy with rfl | hy'
        · exact absurd rfl hxy
        · obtain ⟨hs, hcont⟩ := ihr.1 y hy'
          have hne : (attrGet (getN (ensureLoop gen h
              (attrGet (getN h x) "UUID" :: seen) ctr rest) y) "UUID" ==
              attrGet (getN h x) "UUID") = false :=
            (Bool.or_eq_false_iff.mp hcont).1
          rw [hfini]
          exact fun he => ne_of_beq_false hne he.symm
        · obtain ⟨hs, hcont⟩ := ihr.1 x hx'
          have hne : (attrGet (getN (ensureLoop gen h
              (attrGet (getN h y) "UUID" :: seen) ctr rest) x) "UUID" ==
              attrGet (getN h y) "UUID") = false :=
            (Bool.or_eq_false_iff.mp hcont).1
          rw [hfini]
          exact ne_of_beq_false hne
        · exact ihr.2 x hx' y hy' hxy

/-- A value not yet seen and different from every earlier element's value
is kept (first traversal occurrence wins). -/
theorem ensureLoop_kept (gen : Nat → String) (rest : List Nat)
    (h : Heap) (seen : List (Option String)) (ctr : Nat)
    (hnd : rest.Nodup)
    (hfresh : ∀ n, ctr ≤ n → n < ctr + rest.length →
      ∀ i ∈ rest, attrGet (getN h i) "UUID" ≠ some (gen n)) :
    ∀ l1 x l2, rest = l1 ++ x :: l2 →
      seen.contains (attrGet (getN h x) "UUID") = false →
      (∀ j ∈ l1, attrGet (getN h x) "UUID" ≠ attrGet (getN h j) "UUID") →
      attrGet (getN (ensureLoop gen h seen ctr rest) x) "UUID" =
        attrGet (getN h x) "UUID" := by
  induction rest generalizing h seen ctr with
  | nil =>
    intro l1 x l2 heq
    exact absurd heq (by simp)
  | cons i rest ih =>
    intro l1 x l2 heq hseen hl1
    obtain ⟨hi_not, hnd'⟩ := List.nodup_cons.mp hnd
    cases l1 with
    | nil =>
      simp only [List.nil_append, List.cons.injEq] at heq
      obtain ⟨rfl, rfl⟩ := heq
      rw [ensureLoop, if_neg (by rw [hseen]; exact Bool.false_ne_true)]
      rw [ensureLoop_getN_not_mem gen _ h _ _ i hi_not]
    | cons j l1' =>
      simp only [List.cons_append, List.cons.injEq] at heq
      obtain ⟨rfl, hrest⟩ := heq
      have hx_rest : x ∈ rest := by
        rw [hrest]; exact List.mem_append_right _ (List.mem_cons_self _ _)
      have hx_ne : x ≠ i := fun he => hi_not (he ▸ hx_rest)
      have hxi : attrGet (getN h x) "UUID" ≠ attrGet (getN h i) "UUID" :=
        hl1 i (List.mem_cons_self _ _)
      rw [ensureLoop]
      by_cases hc : seen.contains (attrGet (getN h i) "UUID") = true
      · rw [if_pos hc]
        cases hu : attrGet (getN h i) "UUID" with
        | some u =>
          have hrepl : replace_uuid gen ctr h i =
              (setN h i (attrSet (getN h i) "UUID" (gen ctr)),
               some (gen ctr), ctr + 1) := by
            simp [replace_uuid, hu]
          rw [hrepl]
          have hget : ∀ y ∈ rest, getN (setN h i (attrSet (getN h i) "UUID"
              (gen ctr))) y = getN h y := fun y hy =>
            getN_setN_ne _ _ _ _ (fun he => hi_not (he ▸ hy))
          have hres := ih (setN h i (attrSet (getN h i) "UUID" (gen ctr)))
            (some (gen ctr) :: seen) (ctr + 1) hnd'
            (fun n hn1 hn2 y hy => by
              rw [hget y hy]
              exact hfresh n (Nat.le_of_succ_le hn1)
                (by simp only [List.length_cons]; omega) y
                (List.mem_cons_of_mem _ hy))
            l1' x l2 hrest
            (by
              rw [hget x hx_rest]
              show ((attrGet (getN h x) "UUID" == some (gen ctr)) ||
                seen.contains (attrGet (getN h x) "UUID")) = false
              have hb : (attrGet (getN h x) "UUID" == some (gen ctr)) = false := by
                apply beq_eq_false_iff_ne.mpr
                exact hfresh ctr (Nat.le_refl _)
                  (by simp only [List.length_cons]; omega) x
                  (List.mem_cons_of_mem _ hx_rest)
              rw [hb, hseen]
              rfl)
            (fun j' hj' => by
              rw [hget x hx_rest, hget j' (by
                rw [hrest]; exact List.mem_append_left _ hj')]
              exact hl1 j' (List.mem_cons_of_mem _ hj'))
          rw [hres, hget x hx_rest]
        | none =>
          have hrepl : replace_uuid gen ctr h i = (h, none, ctr) := by
            simp [replace_uuid, hu]
          rw [hrepl]
          have hres := ih h (none :: seen) ctr hnd'
            (fun n hn1 hn2 y hy =>
              hfresh n hn1 (by simp only [List.length_cons]; omega) y
                (List.mem_cons_of_mem _ hy))
            l1' x l2 hrest
            (by
              show ((attrGet (getN h x) "UUID" == none) ||
                seen.contains (attrGet (getN h x) "UUID")) = false
              have hb : (attrGet (getN h x) "UUID" == (none : Option String)) = false := by
                apply beq_eq_false_iff_ne.mpr
                rw [← hu]
                exact hxi
              rw [hb, hseen]
              rfl)
            (fun j' hj' => hl1 j' (List.mem_cons_of_mem _ hj'))
          exact hres
      · rw [if_neg hc]
        exact ih h (attrGet (getN h i) "UUID" :: seen) ctr hnd'
          (fun n hn1 hn2 y hy =>
            hfresh n hn1 (by simp only [List.length_cons]; omega) y
              (List.mem_cons_of_mem _ hy))
          l1' x l2 hrest
          (by
            show ((attrGet (getN h x) "UUID" == attrGet (getN h i) "UUID") ||
              seen.contains (attrGet (getN h x) "UUID")) = false
            rw [beq_eq_false_iff_ne.mpr hxi, hseen]
            rfl)
          (fun j' hj' => hl1 j' (List.mem_cons_of_mem _ hj'))

/-- A value already seen (or equal to an earlier element's value) is
replaced with a freshly generated one. -/
theorem ensureLoop_replaced (gen : Nat → String) (rest : List Nat)
    (h : Heap) (seen : List (Option String)) (ctr : Nat)
    (hnd : rest.Nodup)
    (hvalid : ∀ i ∈ rest, i < h.length)
    (hsome : ∀ i ∈ rest, (attrGet (getN h i) "UUID").isSome = true) :
    ∀ l1 x l2, rest = l1 ++ x :: l2 →
      (seen.contains (attrGet (getN h x) "UUID") = true ∨
        ∃ j ∈ l1, attrGet (getN h x) "UUID" = attrGet (getN h j) "UUID") →
      ∃ k, ctr ≤ k ∧ k < ctr + rest.length ∧
        attrGet (getN (ensureLoop gen h seen ctr rest) x) "UUID" =
          some (gen k) := by
  induction rest generalizing h seen ctr with
  | nil =>
    intro l1 x l2 heq
    exact absurd heq (by simp)
  | cons i rest ih =>
    intro l1 x l2 heq hdup
    obtain ⟨hi_not, hnd'⟩ := List.nodup_cons.mp hnd
    cases l1 with
    | nil =>
      simp only [List.nil_append, List.cons.injEq] at heq
      obtain ⟨rfl, rfl⟩ := heq
      have hc : seen.contains (attrGet (getN h i) "UUID") = true := by
        rcases hdup with hc | ⟨j, hj, _⟩
        · exact hc
        · exact absurd hj (List.not_mem_nil j)
      obtain ⟨u, hu⟩ :=
        Option.isSome_iff_exists.mp (hsome i (List.mem_cons_self _ _))
      rw [ensureLoop, if_pos hc]
      have hrepl : replace_uuid gen ctr h i =
          (setN h i (attrSet (getN h i) "UUID" (gen ctr)),
           some (gen ctr), ctr + 1) := by
        simp [replace_uuid, hu]
      rw [hrepl]
      refine ⟨ctr, Nat.le_refl _, by simp only [List.length_cons]; omega, ?_⟩
      rw [ensureLoop_getN_not_mem gen _ _ _ _ i hi_not,
        getN_setN_self _ _ _ (hvalid i (List.mem_cons_self _ _)),
        attrGet_attrSet_self]
    | cons j l1' =>
      simp only [List.cons_append, List.cons.injEq] at heq
      obtain ⟨rfl, hrest⟩ := heq
      have hx_rest : x ∈ rest := by
        rw [hrest]; exact List.mem_append_right _ (List.mem_cons_self _ _)
      rw [ensureLoop]
      by_cases hc : seen.contains (attrGet (getN h i) "UUID") = true
      · rw [if_pos hc]
        obtain ⟨u, hu⟩ :=
          Option.isSome_iff_exists.mp (hsome i (List.mem_cons_self _ _))
        have hrepl : replace_uuid gen ctr h i =
            (setN h i (attrSet (getN h i) "UUID" (gen ctr)),
             some (gen ctr), ctr + 1) := by
          simp [replace_uuid, hu]
        rw [hrepl]
        have hget : ∀ y ∈ rest, getN (setN h i (attrSet (getN h i) "UUID"
            (gen ctr))) y = getN h y := fun y hy =>
          getN_setN_ne _ _ _ _ (fun he => hi_not (he ▸ hy))
        have hdup' : ((some (gen ctr) :: seen).contains
            (attrGet (getN (setN h i (attrSet (getN h i) "UUID" (gen ctr)))
              x) "UUID") = true) ∨
            ∃ j' ∈ l1', attrGet (getN (setN h i (attrSet (getN h i) "UUID"
              (gen ctr))) x) "UUID" =
              attrGet (getN (setN h i (attrSet (getN h i) "UUID" (gen ctr)))
                j') "UUID" := by
          rw [hget x hx_rest]
          rcases hdup with hsn | ⟨j', hj', hv⟩
          · left
            show ((attrGet (getN h x) "UUID" == some (gen ctr)) ||
              seen.contains (attrGet (getN h x) "UUID")) = true
            rw [hsn, Bool.or_true]
          · rcases List.mem_cons.mp hj' with rfl | hj''
            · left
              show ((attrGet (getN h x) "UUID" == some (gen ctr)) ||
                seen.contains (attrGet (getN h x) "UUID")) = true
              rw [hv, hc, Bool.or_true]
            · right
              refine ⟨j', hj'', ?_⟩
              rw [hget j' (by rw [hrest]; exact List.mem_append_left _ hj'')]
              exact hv
        obtain ⟨k, hk1, hk2, hk3⟩ := ih
          (setN h i (attrSet (getN h i) "UUID" (gen ctr)))
          (some (gen ctr) :: seen) (ctr + 1) hnd'
          (fun y hy => by
            rw [length_setN]; exact hvalid y (List.mem_cons_of_mem _ hy))
          (fun y hy => by
            rw [hget y hy]; exact hsome y (List.mem_cons_of_mem _ hy))
          l1' x l2 hrest hdup'
        exact ⟨k, by omega, by simp only [List.length_cons]; omega, hk3⟩
      · rw [if_neg hc]
        have hcf : seen.contains (attrGet (getN h i) "UUID") = false := by
          cases hb : seen.contains (attrGet (getN h i) "UUID") with
          | true => exact absurd hb hc
          | false => rfl
        have hdup' : ((attrGet (getN h i) "UUID" :: seen).contains
            (attrGet (getN h x) "UUID") = true) ∨
            ∃ j' ∈ l1', attrGet (getN h x) "UUID" =
              attrGet (getN h j') "UUID" := by
          rcases hdup with hsn | ⟨j', hj', hv⟩
          · left
            show ((attrGet (getN h x) "UUID" == attrGet (getN h i) "UUID") ||
              seen.contains (attrGet (getN h x) "UUID")) = true
            rw [hsn, Bool.or_true]
          · rcases List.mem_cons.mp hj' with rfl | hj''
            · left
              rw [List.contains_cons, hv]
              simp
            · exact Or.inr ⟨j', hj'', hv⟩
        obtain ⟨k, hk1, hk2, hk3⟩ := ih h (attrGet (getN h i) "UUID" :: seen)
          ctr hnd'
          (fun y hy => hvalid y (List.mem_cons_of_mem _ hy))
          (fun y hy => hsome y (List.mem_cons_of_mem _ hy))
          l1' x l2 hrest hdup'
        exact ⟨k, hk1, by simp only [List.length_cons]; omega, hk3⟩

theorem findallWithUUID_isSome (h : Heap) (root : Nat) :
    ∀ i ∈ findallWithUUID h root, (attrGet (getN h i) "UUID").isSome = true := by
  intro i hi
  have := (List.mem_filter.mp hi).2
  simpa using this

theorem findallWithUUID_valid (h : Heap) (root : Nat) :
    ∀ i ∈ findallWithUUID h root, i < h.length := by
  intro i hi
  by_contra hge
  have hnone : getN h i = emptyNode := by
    simp [getN, List.getD, List.getElem?_eq_none (Nat.le_of_not_lt hge)]
  have hs := findallWithUUID_isSome h root i hi
  rw [hnone] at hs
  simp [attrGet, emptyNode, List.find?] at hs

/-! ## C7 — identity uniquification -/

/-- C7 (counterexample to the claim as stated): in `rootUuidHeap` the root
element and its child both carry `UUID = "u"`; `ensure_unique_uuids` walks
`root.findall('.//*[@UUID]')`, which never yields the root itself, so the
duplicate pair survives the call unchanged — two distinct nodes of the
document still share the same identity value afterwards. -/
theorem c7_root_uuid_survives_deduplication :
    attrGet (getN (ensure_unique_uuids freshGen rootUuidHeap 0) 0) "UUID" =
      some "u" ∧
    attrGet (getN (ensure_unique_uuids freshGen rootUuidHeap 0) 1) "UUID" =
      some "u" ∧
    (0 : Nat) ≠ 1 :=
  ⟨by decide, by decide, by decide⟩

/-- C7 (amended): restricted to the nodes the traversal actually visits —
the strict descendants of the root carrying the identity attribute — and
assuming the generated identities are pairwise distinct and fresh for the
document, `ensure_unique_uuids` leaves no two visited nodes with the same
identity value; the first traversal occurrence of a value is kept, and
every later occurrence is replaced with a freshly generated value.  (The
root element's own identity attribute is never examined.) -/
theorem c7_descendant_uuids_unique (gen : Nat → String) (h : Heap) (root : Nat)
    (hnd : (findallWithUUID h root).Nodup)
    (hfresh : ∀ n, n < (findallWithUUID h root).length →
      ∀ i ∈ findallWithUUID h root, attrGet (getN h i) "UUID" ≠ some (gen n))
    (hinj : ∀ m, m < (findallWithUUID h root).length →
      ∀ n, n < (findallWithUUID h root).length → m ≠ n → gen m ≠ gen n) :
    (∀ i ∈ findallWithUUID h root, ∀ j ∈ findallWithUUID h root, i ≠ j →
      attrGet (getN (ensure_unique_uuids gen h root) i) "UUID" ≠
      attrGet (getN (ensure_unique_uuids gen h root) j) "UUID") ∧
    (∀ l1 x l2, findallWithUUID h root = l1 ++ x :: l2 →
      (∀ j ∈ l1, attrGet (getN h x) "UUID" ≠ attrGet (getN h j) "UUID") →
      attrGet (getN (ensure_unique_uuids gen h root) x) "UUID" =
        attrGet (getN h x) "UUID") ∧
    (∀ l1 x l2, findallWithUUID h root = l1 ++ x :: l2 →
      (∃ j ∈ l1, attrGet (getN h x) "UUID" = attrGet (getN h j) "UUID") →
      ∃ k, k < (findallWithUUID h root).length ∧
        attrGet (getN (ensure_unique_uuids gen h root) x) "UUID" =
          some (gen k)) := by
  refine ⟨?_, ?_, ?_⟩
  · exact (ensureLoop_distinct gen (findallWithUUID h root) h [] 0 hnd
      (findallWithUUID_valid h root) (findallWithUUID_isSome h root)
      (fun n hn1 hn2 => ⟨rfl, fun i hi he =>
        hfresh n (by omega) i hi he⟩)
      (fun m n hm1 hm2 hn1 hn2 hmn =>
        hinj m (by omega) n (by omega) hmn)).2
  · intro l1 x l2 heq hl1
    exact ensureLoop_kept gen (findallWithUUID h root) h [] 0 hnd
      (fun n hn1 hn2 i hi he => hfresh n (by omega) i hi he)
      l1 x l2 heq rfl hl1
  · intro l1 x l2 heq hdup
    obtain ⟨k, hk1, hk2, hk3⟩ := ensureLoop_replaced gen
      (findallWithUUID h root) h [] 0 hnd
      (findallWithUUID_valid h root) (findallWithUUID_isSome h root)
      l1 x l2 heq (Or.inr hdup)
    exact ⟨k, by omega, hk3⟩

/-- C7 witness: two sibling descendants of `childUuidHeap` both carrying
`UUID = "u"`: after the call their identities differ. -/
theorem c7_descendant_uuids_unique_witness :
    attrGet (getN (ensure_unique_uuids freshGen childUuidHeap 0) 1) "UUID" ≠
    attrGet (getN (ensure_unique_uuids freshGen childUuidHeap 0) 2) "UUID" :=
  (c7_descendant_uuids_unique freshGen childUuidHeap 0 (by decide) (by decide)
    (by decide)).1 1 (by decide) 2 (by decide) (by decide)

/-! ## Path-map (dict) lemmas -/

theorem dictGet_dictSet_self (m : PathMap) (k v : String) :
    dictGet (dictSet m k v) k = some v := by
  unfold dictGet dictSet
  by_cases hany : m.any (fun q => q.1 == k) = true
  · simpa [hany] using findMap_setAssoc m k v hany
  · have hnone : m.any (fun q => q.1 == k) = false := by
      cases hb : m.any (fun q => q.1 == k) with
      | true => exact absurd hb hany
      | false => rfl
    simpa [hnone] using findMap_appendAssoc m k v hnone

theorem find?_mapSet_ne (m : PathMap) (k v k' : String) (hne : k' ≠ k) :
    (m.map (fun q => if q.1 == k then (k, v) else q)).find?
      (fun q => q.1 == k') = m.find? (fun q => q.1 == k') := by
  have hk' : (k == k') = false := by
    apply beq_eq_false_iff_ne.mpr
    exact fun he => hne he.symm
  induction m with
  | nil => rfl
  | cons q qs ih =>
    rw [List.map_cons]
    by_cases hq : (q.1 == k) = true
    · have hq1 : q.1 = k := by simpa using hq
      have hq' : (q.1 == k') = false := by rw [hq1]; exact hk'
      rw [if_pos hq]
      simp only [List.find?, hk', hq']
      exact ih
    · have hq2 : (q.1 == k) = false := by
        cases hb : (q.1 == k) with
        | true => exact absurd hb hq
        | false => rfl
      rw [if_neg hq]
      simp only [List.find?]
      cases hq3 : (q.1 == k') with
      | true => rfl
      | false => exact ih

theorem find?_append_single_ne (m : PathMap) (k v k' : String) (hne : k' ≠ k) :
    (m ++ [(k, v)]).find? (fun q => q.1 == k') = m.find? (fun q => q.1 == k') := by
  have hk' : (k == k') = false := by
    apply beq_eq_false_iff_ne.mpr
    exact fun he => hne he.symm
  induction m with
  | nil =>
    simp only [List.nil_append, List.find?, hk']
  | cons q qs ih =>
    rw [List.cons_append]
    simp only [List.find?]
    cases hq : (q.1 == k') with
    | true => rfl
    | false => exact ih

theorem dictGet_dictSet_ne (m : PathMap) (k v k' : String) (hne : k' ≠ k) :
    dictGet (dictSet m k v) k' = dictGet m k' := by
  unfold dictGet dictSet
  by_cases hany : m.any (fun q => q.1 == k) = true
  · rw [if_pos hany, find?_mapSet_ne m k v k' hne]
  · rw [if_neg hany, find?_append_single_ne m k v k' hne]

theorem any_mapSet_ne (m : PathMap) (k v k' : String) (hne : k' ≠ k) :
    (m.map (fun q => if q.1 == k then (k, v) else q)).any (fun q => q.1 == k') =
      m.any (fun q => q.1 == k') := by
  have hk' : (k == k') = false := by
    apply beq_eq_false_iff_ne.mpr
    exact fun he => hne he.symm
  induction m with
  | nil => rfl
  | cons q qs ih =>
    rw [List.map_cons]
    by_cases hq : (q.1 == k) = true
    · have hq1 : q.1 = k := by simpa using hq
      have hq' : (q.1 == k') = false := by rw [hq1]; exact hk'
      rw [if_pos hq]
      simp only [List.any_cons, hq', ih]
      rw [show ((k, v).1 == k') = false from hk']
    · rw [if_neg hq]
      simp only [List.any_cons, ih]

theorem containsKey_dictSet_ne (m : PathMap) (k v k' : String) (hne : k' ≠ k) :
    containsKey (dictSet m k v) k' = containsKey m k' := by
  have hk' : (k == k') = false := by
    apply beq_eq_false_iff_ne.mpr
    exact fun he => hne he.symm
  unfold containsKey dictSet
  by_cases hany : m.any (fun q => q.1 == k) = true
  · rw [if_pos hany]
    exact any_mapSet_ne m k v k' hne
  · rw [if_neg hany]
    simp only [List.any_append, List.any_cons, List.any_nil, hk']
    simp

theorem length_dictSet_not_contains (m : PathMap) (k v : String)
    (hnc : containsKey m k = false) :
    (dictSet m k v).length = m.length + 1 := by
  unfold containsKey at hnc
  unfold dictSet
  rw [if_neg (by rw [hnc]; exact Bool.false_ne_true)]
  simp

theorem dictOfEntries_nil (acc : PathMap) : dictOfEntries acc [] = acc := rfl

theorem dictOfEntries_cons (acc : PathMap) (kv : String × String)
    (es : List (String × String)) :
    dictOfEntries acc (kv :: es) = dictOfEntries (dictSet acc kv.1 kv.2) es := rfl

theorem dictGet_dictOfEntries_not_mem (acc : PathMap)
    (es : List (String × String)) (k : String) (hk : k ∉ es.map Prod.fst) :
    dictGet (dictOfEntries acc es) k = dictGet acc k := by
  induction es generalizing acc with
  | nil => rfl
  | cons kv es ih =>
    rw [dictOfEntries_cons]
    have hk1 : k ≠ kv.1 := by
      intro he
      exact hk (he ▸ List.mem_map_of_mem Prod.fst (List.mem_cons_self _ _))
    rw [ih _ (fun hm => hk (by
      rcases List.mem_map.mp hm with ⟨q, hq, hqe⟩
      exact List.mem_map.mpr ⟨q, List.mem_cons_of_mem _ hq, hqe⟩))]
    exact dictGet_dictSet_ne acc kv.1 kv.2 k hk1

theorem containsKey_dictOfEntries_not_mem (acc : PathMap)
    (es : List (String × String)) (k : String) (hk : k ∉ es.map Prod.fst) :
    containsKey (dictOfEntries acc es) k = containsKey acc k := by
  induction es generalizing acc with
  | nil => rfl
  | cons kv es ih =>
    rw [dictOfEntries_cons]
    have hk1 : k ≠ kv.1 := by
      intro he
      exact hk (he ▸ List.mem_map_of_mem Prod.fst (List.mem_cons_self _ _))
    rw [ih _ (fun hm => hk (by
      rcases List.mem_map.mp hm with ⟨q, hq, hqe⟩
      exact List.mem_map.mpr ⟨q, List.mem_cons_of_mem _ hq, hqe⟩))]
    exact containsKey_dictSet_ne acc kv.1 kv.2 k hk1

theorem dictGet_dictOfEntries_mem (acc : PathMap) (es : List (String × String))
    (k v : String) (hnd : (es.map Prod.fst).Nodup) (hkv : (k, v) ∈ es) :
    dictGet (dictOfEntries acc es) k = some v := by
  induction es generalizing acc with
  | nil => cases hkv
  | cons kv es ih =>
    rw [List.map_cons] at hnd
    obtain ⟨hhead, hnd'⟩ := List.nodup_cons.mp hnd
    rw [dictOfEntries_cons]
    rcases List.mem_cons.mp hkv with rfl | hkv'
    · rw [dictGet_dictOfEntries_not_mem _ _ _ hhead]
      exact dictGet_dictSet_self acc k v
    · exact ih _ hnd' hkv'

theorem length_dictOfEntries (acc : PathMap) (es : List (String × String))
    (hnd : (es.map Prod.fst).Nodup)
    (hacc : ∀ k ∈ es.map Prod.fst, containsKey acc k = false) :
    (dictOfEntries acc es).length = acc.length + es.length := by
  induction es generalizing acc with
  | nil => rfl
  | cons kv es ih =>
    rw [List.map_cons] at hnd
    obtain ⟨hhead, hnd'⟩ := List.nodup_cons.mp hnd
    rw [dictOfEntries_cons]
    rw [ih _ hnd' (fun k hk => by
      have hne : k ≠ kv.1 := fun he => hhead (he ▸ hk)
      rw [containsKey_dictSet_ne _ _ _ _ hne]
      exact hacc k (List.mem_cons_of_mem _ hk))]
    rw [length_dictSet_not_contains _ _ _
      (hacc kv.1 (List.mem_map_of_mem Prod.fst (List.mem_cons_self _ _)))]
    simp [Nat.add_comm, Nat.add_assoc, Nat.add_left_comm]

theorem containsKey_dictSet_self (m : PathMap) (k v : String) :
    containsKey (dictSet m k v) k = true := by
  unfold containsKey dictSet
  by_cases hany : m.any (fun q => q.1 == k) = true
  · rw [if_pos hany]
    induction m with
    | nil => simp at hany
    | cons q qs ih =>
      rw [List.map_cons, List.any_cons]
      by_cases hq : (q.1 == k) = true
      · rw [if_pos hq]
        simp
      · have hq2 : (q.1 == k) = false := by
          cases hb : (q.1 == k) with
          | true => exact absurd hb hq
          | false => rfl
        rw [List.any_cons, hq2, Bool.false_or] at hany
        rw [if_neg hq, hq2, Bool.false_or]
        exact ih hany
  · rw [if_neg hany]
    simp [List.any_append]

theorem containsKey_dictOfEntries_mem (acc : PathMap)
    (es : List (String × String)) (k : String) (hk : k ∈ es.map Prod.fst) :
    containsKey (dictOfEntries acc es) k = true := by
  induction es generalizing acc with
  | nil => cases hk
  | cons kv es ih =>
    rw [dictOfEntries_cons]
    by_cases hkes : k ∈ es.map Prod.fst
    · exact ih _ hkes
    · rcases List.mem_cons.mp hk with he | hk'
      · rw [containsKey_dictOfEntries_not_mem _ _ _ hkes, he]
        exact containsKey_dictSet_self acc kv.1 kv.2
      · exact absurd hk' hkes

/-! ## Key-function and duplicate-search lemmas -/

theorem namesOf_cons (f : Nat → Option (Option String)) (x : Nat) (xs : List Nat)
    (n : Option String) (ns : List (Option String))
    (hx : f x = some n) (hxs : namesOf f xs = some ns) :
    namesOf f (x :: xs) = some (n :: ns) := by
  simp [namesOf, hx, hxs]

theorem namesOf_cons_inv (f : Nat → Option (Option String)) (x : Nat)
    (xs : List Nat) (res : List (Option String))
    (hno : namesOf f (x :: xs) = some res) :
    ∃ n ns, f x = some n ∧ namesOf f xs = some ns ∧ res = n :: ns := by
  cases hx : f x with
  | none => simp [namesOf, hx] at hno
  | some n =>
    cases hxs : namesOf f xs with
    | none => simp [namesOf, hx, hxs] at hno
    | some ns =>
      refine ⟨n, ns, rfl, rfl, ?_⟩
      simp [namesOf, hx, hxs] at hno
      exact hno.symm

theorem namesOf_mem (f : Nat → Option (Option String)) (l : List Nat)
    (ns : List (Option String)) (hno : namesOf f l = some ns) :
    ∀ x ∈ l, ∃ nx, f x = some nx ∧ nx ∈ ns := by
  induction l generalizing ns with
  | nil =>
    intro x hx
    cases hx
  | cons y ys ih =>
    intro x hx
    obtain ⟨n, ns', hy, hys, rfl⟩ := namesOf_cons_inv f y ys ns hno
    rcases List.mem_cons.mp hx with rfl | hx'
    · exact ⟨n, hy, List.mem_cons_self _ _⟩
    · obtain ⟨nx, hnx, hmem⟩ := ih ns' hys x hx'
      exact ⟨nx, hnx, List.mem_cons_of_mem _ hmem⟩

theorem namesOf_length (f : Nat → Option (Option String)) (l : List Nat)
    (ns : List (Option String)) (hno : namesOf f l = some ns) :
    ns.length = l.length := by
  induction l generalizing ns with
  | nil =>
    simp [namesOf] at hno
    simp [← hno]
  | cons y ys ih =>
    obtain ⟨n, ns', hy, hys, rfl⟩ := namesOf_cons_inv f y ys ns hno
    simp [ih ns' hys]

theorem findDuplicate_of_not_mem (dN : Nat → Option (Option String))
    (l : List Nat) (ns : List (Option String)) (n : Option String)
    (hno : namesOf dN l = some ns) (hn : n ∉ ns) :
    findDuplicate dN n l = some none := by
  induction l generalizing ns with
  | nil => rfl
  | cons x xs ih =>
    obtain ⟨nx, ns', hx, hxs, rfl⟩ := namesOf_cons_inv dN x xs ns hno
    have hne : n ≠ nx := fun he => hn (he ▸ List.mem_cons_self _ _)
    simp only [findDuplicate, hx, if_neg hne]
    exact ih ns' hxs (fun hm => hn (List.mem_cons_of_mem _ hm))

theorem findDuplicate_exists (dN : Nat → Option (Option String))
    (l : List Nat) (ns : List (Option String)) (n : Option String)
    (hno : namesOf dN l = some ns) :
    ∃ dup, findDuplicate dN n l = some dup := by
  induction l generalizing ns with
  | nil => exact ⟨none, rfl⟩
  | cons x xs ih =>
    obtain ⟨nx, ns', hx, hxs, rfl⟩ := namesOf_cons_inv dN x xs ns hno
    by_cases he : n = nx
    · exact ⟨some x, by simp [findDuplicate, hx, he]⟩
    · obtain ⟨dup, hdup⟩ := ih ns' hxs
      exact ⟨dup, by simp only [findDuplicate, hx, if_neg he]; exact hdup⟩

theorem findDuplicate_mem (dN : Nat → Option (Option String)) (l : List Nat)
    (n : Option String) (d : Nat)
    (hfd : findDuplicate dN n l = some (some d)) : d ∈ l := by
  induction l with
  | nil => simp [findDuplicate] at hfd
  | cons x xs ih =>
    cases hx : dN x with
    | none => simp [findDuplicate, hx] at hfd
    | some nx =>
      by_cases he : n = nx
      · simp only [findDuplicate, hx, if_pos he, Option.some.injEq,
          Option.some.injEq] at hfd
        exact hfd ▸ List.mem_cons_self _ _
      · simp only [findDuplicate, hx, if_neg he] at hfd
        exact List.mem_cons_of_mem _ (ih hfd)

/-! ## The path-map loop as a fold over per-element entries -/

theorem extendEntry_no_dup (h : Heap) (srcPs dstPs : Parents) (dstId : Nat)
    (dstChildren : List Nat) (sName dName : Nat → Option (Option String))
    (e : Nat) (n : Option String) (p bp : String)
    (hsn : sName e = some n)
    (hsp : xml_elem_get_abs_path h srcPs e = some p)
    (hfd : findDuplicate dName n dstChildren = some none)
    (hbp : xml_elem_get_abs_path h dstPs dstId = some bp) :
    extendEntry h srcPs dstPs dstId dstChildren sName dName e =
      some (p, bp ++ pyTailFromLastSlash p) := by
  simp [extendEntry, hsn, hsp, hfd, hbp]

theorem extendEntry_dup (h : Heap) (srcPs dstPs : Parents) (dstId : Nat)
    (dstChildren : List Nat) (sName dName : Nat → Option (Option String))
    (e d : Nat) (n : Option String) (p dp : String)
    (hsn : sName e = some n)
    (hsp : xml_elem_get_abs_path h srcPs e = some p)
    (hfd : findDuplicate dName n dstChildren = some (some d))
    (hdp : xml_elem_get_abs_path h dstPs d = some dp) :
    extendEntry h srcPs dstPs dstId dstChildren sName dName e = some (p, dp) := by
  simp [extendEntry, hsn, hsp, hfd, hdp]

theorem extendPathLoop_eq_fold (h : Heap) (srcPs dstPs : Parents) (dstId : Nat)
    (dstChildren : List Nat) (sName dName : Nat → Option (Option String)) :
    ∀ (src : List Nat) (entries : List (String × String)) (acc : PathMap),
    src.map (extendEntry h srcPs dstPs dstId dstChildren sName dName) =
      entries.map some →
    extendPathLoop h srcPs dstPs dstId dstChildren sName dName src acc =
      some (dictOfEntries acc entries) := by
  intro src
  induction src with
  | nil =>
    intro entries acc hmap
    cases entries with
    | nil => rfl
    | cons kv es => simp at hmap
  | cons e src ih =>
    intro entries acc hmap
    cases entries with
    | nil => simp at hmap
    | cons kv es =>
      simp only [List.map_cons, List.cons.injEq] at hmap
      obtain ⟨hhead, htail⟩ := hmap
      cases hsn : sName e with
      | none => simp [extendEntry, hsn] at hhead
      | some n =>
        cases hsp : xml_elem_get_abs_path h srcPs e with
        | none => simp [extendEntry, hsn, hsp] at hhead
        | some p =>
          cases hfd : findDuplicate dName n dstChildren with
          | none => simp [extendEntry, hsn, hsp, hfd] at hhead
          | some dup =>
            cases dup with
            | none =>
              cases hbp : xml_elem_get_abs_path h dstPs dstId with
              | none => simp [extendEntry, hsn, hsp, hfd, hbp] at hhead
              | some bp =>
                have hkv : kv = (p, bp ++ pyTailFromLastSlash p) := by
                  have := extendEntry_no_dup h srcPs dstPs dstId dstChildren
                    sName dName e n p bp hsn hsp hfd hbp
                  rw [this] at hhead
                  exact (Option.some.injEq _ _ ▸ hhead).symm
                subst hkv
                simp only [extendPathLoop, hsn, hsp, hfd, hbp]
                rw [dictOfEntries_cons]
                exact ih es (dictSet acc p (bp ++ pyTailFromLastSlash p)) htail
            | some d =>
              cases hdp : xml_elem_get_abs_path h dstPs d with
              | none => simp [extendEntry, hsn, hsp, hfd, hdp] at hhead
              | some dp =>
                have hkv : kv = (p, dp) := by
                  have := extendEntry_dup h srcPs dstPs dstId dstChildren
                    sName dName e d n p dp hsn hsp hfd hdp
                  rw [this] at hhead
                  exact (Option.some.injEq _ _ ▸ hhead).symm
                subst hkv
                simp only [extendPathLoop, hsn, hsp, hfd, hdp]
                rw [dictOfEntries_cons]
                exact ih es (dictSet acc p dp) htail

theorem xml_elem_extend_no_clash (h : Heap) (srcPs dstPs : Parents)
    (clashes : ClashList) (src : List Nat) (dst : Nat)
    (sName dName : Nat → Option (Option String)) (g : Bool)
    (pm : PathMap) (srcNames dstNames : List (Option String))
    (hloop : extendPathLoop h srcPs dstPs dst (getN h dst).children sName dName
      src [] = some pm)
    (hsrcN : namesOf sName src = some srcNames)
    (hdstN : namesOf dName (getN h dst).children = some dstNames)
    (hinter : srcNames.filter (fun n => dstNames.contains n) = []) :
    xml_elem_extend h srcPs dstPs clashes src dst sName dName g =
      some ⟨pm, (xml_elem_append h dst (.listArg src) dstPs).1,
            (xml_elem_append h dst (.listArg src) dstPs).2, clashes⟩ := by
  simp only [xml_elem_extend]
  rw [hloop, hsrcN, hdstN]
  simp only [hinter, List.isEmpty_nil, if_true]

theorem xml_elem_extend_clash_strict (h : Heap) (srcPs dstPs : Parents)
    (clashes : ClashList) (e0 : Nat) (rest : List Nat) (dst : Nat)
    (sName dName : Nat → Option (Option String))
    (pm : PathMap) (srcNames dstNames : List (Option String)) (p0 bp : String)
    (hloop : extendPathLoop h srcPs dstPs dst (getN h dst).children sName dName
      (e0 :: rest) [] = some pm)
    (hsrcN : namesOf sName (e0 :: rest) = some srcNames)
    (hdstN : namesOf dName (getN h dst).children = some dstNames)
    (hne : (srcNames.filter (fun n => dstNames.contains n)).isEmpty = false)
    (hmix : ((srcNames.filter (fun n => dstNames.contains n)).contains none &&
      (srcNames.filter (fun n => dstNames.contains n)).any (fun x => x.isSome)) = false)
    (hp0 : xml_elem_get_abs_path h srcPs e0 = some p0)
    (hbp : xml_elem_get_abs_path h dstPs dst = some bp) :
    xml_elem_extend h srcPs dstPs clashes (e0 :: rest) dst sName dName false =
      some ⟨pm, h, dstPs, clashes ++ [true]⟩ := by
  simp only [xml_elem_extend]
  rw [hloop, hsrcN, hdstN]
  simp only [hne, hmix, Bool.false_eq_true, if_false]
  rw [hp0, hbp]

theorem xml_elem_extend_clash_graceful (h : Heap) (srcPs dstPs : Parents)
    (clashes : ClashList) (e0 : Nat) (rest : List Nat) (dst : Nat)
    (sName dName : Nat → Option (Option String))
    (pm : PathMap) (srcNames dstNames : List (Option String)) (p0 bp : String)
    (hloop : extendPathLoop h srcPs dstPs dst (getN h dst).children sName dName
      (e0 :: rest) [] = some pm)
    (hsrcN : namesOf sName (e0 :: rest) = some srcNames)
    (hdstN : namesOf dName (getN h dst).children = some dstNames)
    (hne : (srcNames.filter (fun n => dstNames.contains n)).isEmpty = false)
    (hmix : ((srcNames.filter (fun n => dstNames.contains n)).contains none &&
      (srcNames.filter (fun n => dstNames.contains n)).any (fun x => x.isSome)) = false)
    (hp0 : xml_elem_get_abs_path h srcPs e0 = some p0)
    (hbp : xml_elem_get_abs_path h dstPs dst = some bp) :
    xml_elem_extend h srcPs dstPs clashes (e0 :: rest) dst sName dName true =
      some ⟨pm,
        (xml_elem_append h dst (.listArg ((e0 :: rest).filter
          (fun e => !((srcNames.filter (fun n => dstNames.contains n)).contains
            ((sName e).getD none))))) dstPs).1,
        (xml_elem_append h dst (.listArg ((e0 :: rest).filter
          (fun e => !((srcNames.filter (fun n => dstNames.contains n)).contains
            ((sName e).getD none))))) dstPs).2,
        clashes⟩ := by
  simp only [xml_elem_extend]
  rw [hloop, hsrcN, hdstN]
  simp only [hne, hmix, Bool.false_eq_true, if_false]
  rw [hp0, hbp]
  simp

theorem xml_elem_append_listArg (h : Heap) (elem : Nat) (l : List Nat)
    (ps : Parents) :
    xml_elem_append h elem (.listArg l) ps = appendChildren h ps elem l := rfl

theorem entries_of_disjoint (h : Heap) (srcPs dstPs : Parents) (dstId : Nat)
    (dstChildren : List Nat) (sName dName : Nat → Option (Option String))
    (dstNames : List (Option String)) (bp : String)
    (hdstN : namesOf dName dstChildren = some dstNames)
    (hbp : xml_elem_get_abs_path h dstPs dstId = some bp) :
    ∀ (src : List Nat) (srcNames : List (Option String)) (paths : List String),
    namesOf sName src = some srcNames →
    (∀ n ∈ srcNames, n ∉ dstNames) →
    src.map (fun e => xml_elem_get_abs_path h srcPs e) = paths.map some →
    src.map (extendEntry h srcPs dstPs dstId dstChildren sName dName) =
      (paths.map (fun p => (p, bp ++ pyTailFromLastSlash p))).map some := by
  intro src
  induction src with
  | nil =>
    intro srcNames paths _ _ hp
    cases paths with
    | nil => rfl
    | cons p ps => simp at hp
  | cons e src ih =>
    intro srcNames paths hsrcN hdisj hp
    obtain ⟨n, ns', hsn, hns, rfl⟩ := namesOf_cons_inv sName e src srcNames hsrcN
    cases paths with
    | nil => simp at hp
    | cons p ps =>
      simp only [List.map_cons, List.cons.injEq] at hp
      obtain ⟨hpe, hps⟩ := hp
      have hfd := findDuplicate_of_not_mem dName dstChildren dstNames n hdstN
        (hdisj n (List.mem_cons_self _ _))
      rw [List.map_cons, List.map_cons, List.map_cons]
      rw [extendEntry_no_dup h srcPs dstPs dstId dstChildren sName dName e n p bp
        hsn hpe hfd hbp]
      rw [ih ns' ps hns (fun m hm => hdisj m (List.mem_cons_of_mem _ hm)) hps]

theorem map_fst_pairing (f : String → String) (paths : List String) :
    (paths.map (fun p => (p, f p))).map Prod.fst = paths := by
  induction paths with
  | nil => rfl
  | cons p ps ih => simp only [List.map_cons, ih]

/-! ## C1 — merge with disjoint keys -/

/-- C1 (amended): when the source keys are disjoint from the keys of the
destination container's existing children, and the source nodes' pre-merge
paths are pairwise distinct, `xml_elem_extend` attaches every source node
as a child of the destination container (updating the parent index), and
the returned path map has exactly `len(src)` entries, each mapping a source
node's pre-merge path to the destination container's path with that source
path's trailing segment appended.  (Without the path-distinctness
addition, duplicate pre-merge paths collapse into a single dict entry —
see the counterexample.) -/
theorem c1_extend_disjoint_attaches_all_and_maps_each (h : Heap)
    (srcPs dstPs : Parents) (clashes : ClashList) (src : List Nat) (dst : Nat)
    (sName dName : Nat → Option (Option String)) (g : Bool)
    (srcNames dstNames : List (Option String)) (paths : List String) (bp : String)
    (hdst : dst < h.length)
    (hsrcN : namesOf sName src = some srcNames)
    (hdstN : namesOf dName (getN h dst).children = some dstNames)
    (hdisj : ∀ n ∈ srcNames, n ∉ dstNames)
    (hpaths : src.map (fun e => xml_elem_get_abs_path h srcPs e) = paths.map some)
    (hbp : xml_elem_get_abs_path h dstPs dst = some bp)
    (hnd : paths.Nodup) :
    ∃ out, xml_elem_extend h srcPs dstPs clashes src dst sName dName g = some out ∧
      (getN out.heap dst).children = (getN h dst).children ++ src ∧
      (∀ e ∈ src, pget out.dstParents e = some dst) ∧
      out.pathMap.length = src.length ∧
      (∀ e ∈ src, ∀ p, xml_elem_get_abs_path h srcPs e = some p →
        dictGet out.pathMap p = some (bp ++ pyTailFromLastSlash p)) ∧
      out.clashList = clashes := by
  have hmap := entries_of_disjoint h srcPs dstPs dst (getN h dst).children
    sName dName dstNames bp hdstN hbp src srcNames paths hsrcN hdisj hpaths
  have hloop := extendPathLoop_eq_fold h srcPs dstPs dst (getN h dst).children
    sName dName src (paths.map (fun p => (p, bp ++ pyTailFromLastSlash p))) []
    hmap
  have hinter : srcNames.filter (fun n => dstNames.contains n) = [] := by
    apply List.filter_eq_nil_iff.mpr
    intro n hn
    intro hcont
    exact hdisj n hn (List.elem_iff.mp hcont)
  have hext := xml_elem_extend_no_clash h srcPs dstPs clashes src dst sName
    dName g _ srcNames dstNames hloop hsrcN hdstN hinter
  have hfst : (paths.map (fun p => (p, bp ++ pyTailFromLastSlash p))).map
      Prod.fst = paths := map_fst_pairing _ paths
  have hndE : ((paths.map (fun p => (p, bp ++ pyTailFromLastSlash p))).map
      Prod.fst).Nodup := by
    rw [hfst]
    exact hnd
  have hlensrc : src.length = paths.length := by
    have := congrArg List.length hpaths
    simpa using this
  refine ⟨_, hext, ?_, ?_, ?_, ?_, rfl⟩
  · rw [xml_elem_append_listArg]
    exact congrArg XmlNode.children (getN_appendChildren_self h dstPs dst src hdst)
  · intro e he
    rw [xml_elem_append_listArg]
    exact pget_appendChildren_mem h dstPs dst src e he
  · rw [length_dictOfEntries [] _ hndE (fun k _ => rfl)]
    simp [hlensrc]
  · intro e he p hpe
    have hmem_some : some p ∈ paths.map some := by
      rw [← hpaths]
      exact hpe ▸ List.mem_map_of_mem _ he
    have hpmem : p ∈ paths := by
      rcases List.mem_map.mp hmem_some with ⟨q, hq, hqe⟩
      exact (Option.some.injEq _ _ ▸ hqe) ▸ hq
    have hkv : (p, bp ++ pyTailFromLastSlash p) ∈
        paths.map (fun p => (p, bp ++ pyTailFromLastSlash p)) :=
      List.mem_map_of_mem _ hpmem
    exact dictGet_dictOfEntries_mem [] _ p _ hndE hkv

/-- C1 witness: merging `/Src/P1`, `/Src/P2` into the `/Dst` container
(whose only child is named `C1`) attaches both and maps both paths. -/
theorem c1_extend_disjoint_attaches_all_and_maps_each_witness :
    ∃ out, xml_elem_extend mergeHeap mergeSrcPs mergeDstPs [] [1, 2] 9
        (defaultName mergeHeap) (defaultName mergeHeap) false = some out ∧
      (getN out.heap 9).children = [10, 1, 2] ∧
      out.pathMap.length = 2 ∧
      dictGet out.pathMap "/Src/P1" = some "/Dst/P1" := by
  obtain ⟨out, hext, hch, hpg, hlen, hget, hcl⟩ :=
    c1_extend_disjoint_attaches_all_and_maps_each mergeHeap mergeSrcPs
      mergeDstPs [] [1, 2] 9 (defaultName mergeHeap) (defaultName mergeHeap)
      false [some "P1", some "P2"] [some "C1"] ["/Src/P1", "/Src/P2"] "/Dst"
      (by decide) (by decide) (by decide) (by decide) (by decide) (by decide)
      (by decide)
  refine ⟨out, hext, ?_, ?_, ?_⟩
  · rw [hch]
    decide
  · rw [hlen]
    decide
  · have hv := hget 1 (by decide) "/Src/P1" (by decide)
    rw [hv]
    decide

/-- C1 (counterexample to the claim as stated): two source siblings both
named `a` — keys trivially disjoint from the empty destination container —
are both attached, but the returned path map has a single entry (both
nodes share the pre-merge path `/Src/a`), not `len(src) = 2`. -/
theorem c1_duplicate_source_paths_collapse_path_map :
    (getN dupNameHeap 7).children = [] ∧
    (xml_elem_extend dupNameHeap dupNameSrcPs dupNameDstPs [] [1, 2] 7
        (defaultName dupNameHeap) (defaultName dupNameHeap) false).map
      (fun out => ((getN out.heap 7).children, out.pathMap)) =
      some ([1, 2], [("/Src/a", "/Dst/a")]) ∧
    ([("/Src/a", "/Dst/a")] : PathMap).length = 1 ∧
    ([1, 2] : List Nat).length = 2 ∧
    (1 : Nat) ≠ 2 :=
  ⟨by decide, by decide, by decide, by decide, by decide⟩

theorem entries_exist (h : Heap) (srcPs dstPs : Parents) (dstId : Nat)
    (dstChildren : List Nat) (sName dName : Nat → Option (Option String))
    (dstNames : List (Option String))
    (hdstN : namesOf dName dstChildren = some dstNames)
    (hdpaths : ∀ d ∈ dstChildren, (xml_elem_get_abs_path h dstPs d).isSome = true)
    (hbp : (xml_elem_get_abs_path h dstPs dstId).isSome = true) :
    ∀ (src : List Nat) (srcNames : List (Option String)),
    namesOf sName src = some srcNames →
    (∀ e ∈ src, (xml_elem_get_abs_path h srcPs e).isSome = true) →
    ∃ entries : List (String × String),
      src.map (extendEntry h srcPs dstPs dstId dstChildren sName dName) =
        entries.map some := by
  intro src
  induction src with
  | nil => exact fun _ _ _ => ⟨[], rfl⟩
  | cons e src ih =>
    intro srcNames hsrcN hpaths
    obtain ⟨n, ns', hsn, hns, rfl⟩ := namesOf_cons_inv sName e src srcNames hsrcN
    obtain ⟨p, hp⟩ := Option.isSome_iff_exists.mp
      (hpaths e (List.mem_cons_self _ _))
    obtain ⟨dup, hdup⟩ := findDuplicate_exists dName dstChildren dstNames n hdstN
    obtain ⟨entries', hmap'⟩ := ih ns' hns
      (fun x hx => hpaths x (List.mem_cons_of_mem _ hx))
    cases dup with
    | none =>
      obtain ⟨bp, hbpv⟩ := Option.isSome_iff_exists.mp hbp
      refine ⟨(p, bp ++ pyTailFromLastSlash p) :: entries', ?_⟩
      rw [List.map_cons, List.map_cons,
        extendEntry_no_dup h srcPs dstPs dstId dstChildren sName dName e n p bp
          hsn hp hdup hbpv, hmap']
    | some d =>
      obtain ⟨dp, hdpv⟩ := Option.isSome_iff_exists.mp
        (hdpaths d (findDuplicate_mem dName dstChildren n d hdup))
      refine ⟨(p, dp) :: entries', ?_⟩
      rw [List.map_cons, List.map_cons,
        extendEntry_dup h srcPs dstPs dstId dstChildren sName dName e d n p dp
          hsn hp hdup hdpv, hmap']

/-! ## C2 — one colliding key out of three source nodes -/

/-- C2 (amended): with three source nodes of which exactly the third's key
collides with an existing destination child's key, Graceful mode attaches
exactly the two non-colliding nodes and records nothing (the clash list —
the only clash state the engine has — is returned unchanged, so the clash
query does not change); Strict mode attaches zero nodes and the strict
clash query `xml_elem_extend_name_clashed` becomes true. -/
theorem c2_graceful_partial_strict_none (h : Heap) (srcPs dstPs : Parents)
    (clashes : ClashList) (a b c dst : Nat)
    (sName dName : Nat → Option (Option String))
    (na nb nc : Option String) (dstNames : List (Option String))
    (hdst : dst < h.length)
    (hsa : sName a = some na) (hsb : sName b = some nb) (hsc : sName c = some nc)
    (hdstN : namesOf dName (getN h dst).children = some dstNames)
    (hna : na ∉ dstNames) (hnb : nb ∉ dstNames) (hnc : nc ∈ dstNames)
    (hpaths : ∀ e ∈ [a, b, c], (xml_elem_get_abs_path h srcPs e).isSome = true)
    (hdpaths : ∀ d ∈ (getN h dst).children,
      (xml_elem_get_abs_path h dstPs d).isSome = true)
    (hbp : (xml_elem_get_abs_path h dstPs dst).isSome = true) :
    (∃ outG, xml_elem_extend h srcPs dstPs clashes [a, b, c] dst sName dName
        true = some outG ∧
      (getN outG.heap dst).children = (getN h dst).children ++ [a, b] ∧
      outG.clashList = clashes) ∧
    (∃ outS, xml_elem_extend h srcPs dstPs clashes [a, b, c] dst sName dName
        false = some outS ∧
      outS.heap = h ∧ outS.dstParents = dstPs ∧
      outS.clashList = clashes ++ [true] ∧
      xml_elem_extend_name_clashed outS.clashList = true) := by
  have hsrcN : namesOf sName [a, b, c] = some [na, nb, nc] := by
    simp [namesOf, hsa, hsb, hsc]
  obtain ⟨entries, hmap⟩ := entries_exist h srcPs dstPs dst
    (getN h dst).children sName dName dstNames hdstN hdpaths hbp [a, b, c]
    [na, nb, nc] hsrcN hpaths
  have hloop := extendPathLoop_eq_fold h srcPs dstPs dst (getN h dst).children
    sName dName [a, b, c] entries [] hmap
  have hina : (dstNames.contains na) = false := by
    cases hb2 : dstNames.contains na with
    | true => exact absurd (List.elem_iff.mp hb2) hna
    | false => rfl
  have hinb : (dstNames.contains nb) = false := by
    cases hb2 : dstNames.contains nb with
    | true => exact absurd (List.elem_iff.mp hb2) hnb
    | false => rfl
  have hinc : (dstNames.contains nc) = true := List.elem_iff.mpr hnc
  have hinter : ([na, nb, nc].filter (fun n => dstNames.contains n)) = [nc] := by
    simp only [List.filter_cons, hina, hinb, hinc, List.filter_nil]
    simp
  have hne : (([na, nb, nc] : List (Option String)).filter
      (fun n => dstNames.contains n)).isEmpty = false := by
    rw [hinter]
    rfl
  have hmix : ((([na, nb, nc] : List (Option String)).filter
        (fun n => dstNames.contains n)).contains none &&
      (([na, nb, nc] : List (Option String)).filter
        (fun n => dstNames.contains n)).any (fun x => x.isSome)) = false := by
    rw [hinter]
    cases nc with
    | none => simp
    | some s => simp
  obtain ⟨p0, hp0⟩ := Option.isSome_iff_exists.mp
    (hpaths a (List.mem_cons_self _ _))
  obtain ⟨bp, hbpv⟩ := Option.isSome_iff_exists.mp hbp
  have hanc : na ≠ nc := fun he => hna (he ▸ hnc)
  have hbnc : nb ≠ nc := fun he => hnb (he ▸ hnc)
  constructor
  · have hext := xml_elem_extend_clash_graceful h srcPs dstPs clashes a [b, c]
      dst sName dName _ [na, nb, nc] dstNames p0 bp hloop hsrcN hdstN hne hmix
      hp0 hbpv
    have hdiff : ([a, b, c].filter (fun e =>
        !(([na, nb, nc].filter (fun n => dstNames.contains n)).contains
          ((sName e).getD none)))) = [a, b] := by
      rw [hinter]
      have hva : ((sName a).getD none) = na := by rw [hsa]; rfl
      have hvb : ((sName b).getD none) = nb := by rw [hsb]; rfl
      have hvc : ((sName c).getD none) = nc := by rw [hsc]; rfl
      have hca : ([nc].contains na) = false := by
        rw [List.contains_cons, beq_eq_false_iff_ne.mpr hanc]
        rfl
      have hcb : ([nc].contains nb) = false := by
        rw [List.contains_cons, beq_eq_false_iff_ne.mpr hbnc]
        rfl
      have hcc : ([nc].contains nc) = true := by
        rw [List.contains_cons]
        simp
      simp only [List.filter_cons, List.filter_nil, hva, hvb, hvc, hca, hcb,
        hcc, Bool.not_false, Bool.not_true]
      simp
    rw [hdiff] at hext
    refine ⟨_, hext, ?_, rfl⟩
    rw [xml_elem_append_listArg]
    exact congrArg XmlNode.children
      (getN_appendChildren_self h dstPs dst [a, b] hdst)
  · have hext := xml_elem_extend_clash_strict h srcPs dstPs clashes a [b, c]
      dst sName dName _ [na, nb, nc] dstNames p0 bp hloop hsrcN hdstN hne hmix
      hp0 hbpv
    refine ⟨_, hext, rfl, rfl, rfl, ?_⟩
    simp [xml_elem_extend_name_clashed]

/-- C2 witness: sources `P1`, `P2`, `C1` into the `/Dst` container whose
existing child is named `C1`. -/
theorem c2_graceful_partial_strict_none_witness :
    (∃ outG, xml_elem_extend mergeHeap mergeSrcPs mergeDstPs [] [1, 2, 3] 9
        (defaultName mergeHeap) (defaultName mergeHeap) true = some outG ∧
      (getN outG.heap 9).children = (getN mergeHeap 9).children ++ [1, 2] ∧
      outG.clashList = []) ∧
    (∃ outS, xml_elem_extend mergeHeap mergeSrcPs mergeDstPs [] [1, 2, 3] 9
        (defaultName mergeHeap) (defaultName mergeHeap) false = some outS ∧
      outS.heap = mergeHeap ∧ outS.dstParents = mergeDstPs ∧
      outS.clashList = [] ++ [true] ∧
      xml_elem_extend_name_clashed outS.clashList = true) :=
  c2_graceful_partial_strict_none mergeHeap mergeSrcPs mergeDstPs [] 1 2 3 9
    (defaultName mergeHeap) (defaultName mergeHeap) (some "P1") (some "P2")
    (some "C1") [some "C1"] (by decide) (by decide) (by decide) (by decide)
    (by decide) (by decide) (by decide) (by decide) (by decide) (by decide)
    (by decide)

/-- C2 (counterexample to the claim as stated): after the Graceful-mode
call with one colliding key out of three, the two non-colliding nodes are
attached, but no clash is recorded anywhere — the clash list (the
engine's only clash state) is unchanged and the clash query still returns
`false`, whereas the claim says the graceful-clash query becomes true. -/
theorem c2_graceful_records_no_clash :
    (xml_elem_extend mergeHeap mergeSrcPs mergeDstPs [] [1, 2, 3] 9
        (defaultName mergeHeap) (defaultName mergeHeap) true).map
      (fun out => ((getN out.heap 9).children, out.clashList,
        xml_elem_extend_name_clashed out.clashList)) =
      some ([10, 1, 2], [], false) := by
  decide

theorem entries_mixed (h : Heap) (srcPs dstPs : Parents) (dstId : Nat)
    (dstChildren : List Nat) (sName dName : Nat → Option (Option String))
    (dstNames : List (Option String)) (bp : String)
    (hdstN : namesOf dName dstChildren = some dstNames)
    (hdpaths : ∀ d ∈ dstChildren, (xml_elem_get_abs_path h dstPs d).isSome = true)
    (hbp : xml_elem_get_abs_path h dstPs dstId = some bp) :
    ∀ (src : List Nat) (srcNames : List (Option String)) (paths : List String),
    namesOf sName src = some srcNames →
    src.map (fun e => xml_elem_get_abs_path h srcPs e) = paths.map some →
    ∃ entries : List (String × String),
      src.map (extendEntry h srcPs dstPs dstId dstChildren sName dName) =
        entries.map some ∧
      entries.map Prod.fst = paths ∧
      (∀ e ∈ src, ∀ n p, sName e = some n → n ∉ dstNames →
        xml_elem_get_abs_path h srcPs e = some p →
        (p, bp ++ pyTailFromLastSlash p) ∈ entries) := by
  intro src
  induction src with
  | nil =>
    intro srcNames paths _ hp
    cases paths with
    | nil => exact ⟨[], rfl, rfl, fun e he => absurd he (List.not_mem_nil e)⟩
    | cons p ps => simp at hp
  | cons e src ih =>
    intro srcNames paths hsrcN hp
    obtain ⟨n, ns', hsn, hns, rfl⟩ := namesOf_cons_inv sName e src srcNames hsrcN
    cases paths with
    | nil => simp at hp
    | cons p ps =>
      simp only [List.map_cons, List.cons.injEq] at hp
      obtain ⟨hpe, hps⟩ := hp
      obtain ⟨entries', hmap', hfst', hval'⟩ := ih ns' ps hns hps
      by_cases hmem : n ∈ dstNames
      · obtain ⟨dup, hdup⟩ := findDuplicate_exists dName dstChildren dstNames n
          hdstN
        cases dup with
        | none =>
          refine ⟨(p, bp ++ pyTailFromLastSlash p) :: entries', ?_, ?_, ?_⟩
          · rw [List.map_cons, List.map_cons,
              extendEntry_no_dup h srcPs dstPs dstId dstChildren sName dName e n
                p bp hsn hpe hdup hbp, hmap']
          · rw [List.map_cons, hfst']
          · intro x hx n' p' hsn' hnot hp'
            rcases List.mem_cons.mp hx with rfl | hx'
            · rw [hsn] at hsn'
              have : n = n' := by
                simpa using hsn'
              exact absurd (this ▸ hmem) hnot
            · exact List.mem_cons_of_mem _ (hval' x hx' n' p' hsn' hnot hp')
        | some d =>
          obtain ⟨dp, hdpv⟩ := Option.isSome_iff_exists.mp
            (hdpaths d (findDuplicate_mem dName dstChildren n d hdup))
          refine ⟨(p, dp) :: entries', ?_, ?_, ?_⟩
          · rw [List.map_cons, List.map_cons,
              extendEntry_dup h srcPs dstPs dstId dstChildren sName dName e d n
                p dp hsn hpe hdup hdpv, hmap']
          · rw [List.map_cons, hfst']
          · intro x hx n' p' hsn' hnot hp'
            rcases List.mem_cons.mp hx with rfl | hx'
            · rw [hsn] at hsn'
              have : n = n' := by
                simpa using hsn'
              exact absurd (this ▸ hmem) hnot
            · exact List.mem_cons_of_mem _ (hval' x hx' n' p' hsn' hnot hp')
      · have hdup := findDuplicate_of_not_mem dName dstChildren dstNames n hdstN
          hmem
        refine ⟨(p, bp ++ pyTailFromLastSlash p) :: entries', ?_, ?_, ?_⟩
        · rw [List.map_cons, List.map_cons,
            extendEntry_no_dup h srcPs dstPs dstId dstChildren sName dName e n p
              bp hsn hpe hdup hbp, hmap']
        · rw [List.map_cons, hfst']
        · intro x hx n' p' hsn' hnot hp'
          rcases List.mem_cons.mp hx with rfl | hx'
          · rw [hpe] at hp'
            have hpp : p = p' := by
              simpa using hp'
            exact hpp ▸ List.mem_cons_self _ _
          · exact List.mem_cons_of_mem _ (hval' x hx' n' p' hsn' hnot hp')

/-! ## C10 — strict clash: nothing attached, path map still filled -/

/-- C10 (amended): a Strict-mode `xml_elem_extend` whose source and
destination key sets intersect attaches nothing — heap and destination
parent index are returned unchanged while the strict-clash flag is
appended — yet the returned path map, computed before the clash gate,
contains an entry keyed by every source node's pre-merge path; when the
pre-merge paths are pairwise distinct, the entry of every non-colliding
source node maps its path to the destination container's path plus the
source path's trailing segment — the would-be destination path, at which
this call attached nothing.  (The original claim's stronger reading that
NO node exists at that path after the call is false: an unrelated node of
the destination document may already resolve to that very path — see the
counterexample.) -/
theorem c10_strict_clash_map_filled_nothing_attached (h : Heap)
    (srcPs dstPs : Parents) (clashes : ClashList) (e0 : Nat) (rest : List Nat)
    (dst : Nat) (sName dName : Nat → Option (Option String))
    (srcNames dstNames : List (Option String)) (paths : List String) (bp : String)
    (hsrcN : namesOf sName (e0 :: rest) = some srcNames)
    (hdstN : namesOf dName (getN h dst).children = some dstNames)
    (hclash : ∃ n ∈ srcNames, n ∈ dstNames)
    (hallsome : ∀ n ∈ srcNames, n.isSome = true)
    (hpaths : (e0 :: rest).map (fun e => xml_elem_get_abs_path h srcPs e) =
      paths.map some)
    (hdpaths : ∀ d ∈ (getN h dst).children,
      (xml_elem_get_abs_path h dstPs d).isSome = true)
    (hbp : xml_elem_get_abs_path h dstPs dst = some bp)
    (hnd : paths.Nodup) :
    ∃ out, xml_elem_extend h srcPs dstPs clashes (e0 :: rest) dst sName dName
        false = some out ∧
      out.heap = h ∧ out.dstParents = dstPs ∧
      out.clashList = clashes ++ [true] ∧
      (∀ e ∈ e0 :: rest, ∀ p, xml_elem_get_abs_path h srcPs e = some p →
        containsKey out.pathMap p = true) ∧
      (∀ e ∈ e0 :: rest, ∀ n p, sName e = some n → n ∉ dstNames →
        xml_elem_get_abs_path h srcPs e = some p →
        dictGet out.pathMap p = some (bp ++ pyTailFromLastSlash p)) := by
  obtain ⟨entries, hmap, hfst, hval⟩ := entries_mixed h srcPs dstPs dst
    (getN h dst).children sName dName dstNames bp hdstN hdpaths hbp (e0 :: rest)
    srcNames paths hsrcN hpaths
  have hloop := extendPathLoop_eq_fold h srcPs dstPs dst (getN h dst).children
    sName dName (e0 :: rest) entries [] hmap
  obtain ⟨nn, hnn1, hnn2⟩ := hclash
  have hmemf : nn ∈ srcNames.filter (fun n => dstNames.contains n) :=
    List.mem_filter.mpr ⟨hnn1, List.elem_iff.mpr hnn2⟩
  have hne : (srcNames.filter (fun n => dstNames.contains n)).isEmpty = false := by
    cases hb : (srcNames.filter (fun n => dstNames.contains n)).isEmpty with
    | true =>
      rw [List.isEmpty_iff.mp hb] at hmemf
      exact absurd hmemf (List.not_mem_nil nn)
    | false => rfl
  have hmix : ((srcNames.filter (fun n => dstNames.contains n)).contains none &&
      (srcNames.filter (fun n => dstNames.contains n)).any
        (fun x => x.isSome)) = false := by
    have hcn : ((srcNames.filter (fun n => dstNames.contains n)).contains
        none) = false := by
      cases hb : (srcNames.filter (fun n => dstNames.contains n)).contains none with
      | true =>
        have hmem := List.elem_iff.mp hb
        have := hallsome none (List.mem_filter.mp hmem).1
        simp at this
      | false => rfl
    rw [hcn, Bool.false_and]
  have hp0s : (xml_elem_get_abs_path h srcPs e0).isSome = true := by
    cases paths with
    | nil => simp at hpaths
    | cons p ps =>
      simp only [List.map_cons, List.cons.injEq] at hpaths
      rw [hpaths.1]
      rfl
  obtain ⟨p0, hp0⟩ := Option.isSome_iff_exists.mp hp0s
  have hext := xml_elem_extend_clash_strict h srcPs dstPs clashes e0 rest dst
    sName dName _ srcNames dstNames p0 bp hloop hsrcN hdstN hne hmix hp0 hbp
  have hndE : (entries.map Prod.fst).Nodup := by
    rw [hfst]
    exact hnd
  refine ⟨_, hext, rfl, rfl, rfl, ?_, ?_⟩
  · intro e he p hpe
    have hmem_some : some p ∈ paths.map some := by
      rw [← hpaths]
      exact hpe ▸ List.mem_map_of_mem _ he
    have hpmem : p ∈ paths := by
      rcases List.mem_map.mp hmem_some with ⟨q, hq, hqe⟩
      exact (Option.some.injEq _ _ ▸ hqe) ▸ hq
    exact containsKey_dictOfEntries_mem [] entries p (hfst ▸ hpmem)
  · intro e he n p hsn hnot hpe
    exact dictGet_dictOfEntries_mem [] entries p _ hndE
      (hval e he n p hsn hnot hpe)

/-- C10 witness: the strict clash scenario on `mergeHeap` (sources `P1`,
`P2`, `C1`; destination child `C1`): nothing is attached, the clash flag
is appended, and the non-colliding `P1` still has its dangling map entry. -/
theorem c10_strict_clash_map_filled_nothing_attached_witness :
    ∃ out, xml_elem_extend mergeHeap mergeSrcPs mergeDstPs [] [1, 2, 3] 9
        (defaultName mergeHeap) (defaultName mergeHeap) false = some out ∧
      out.heap = mergeHeap ∧ out.clashList = [] ++ [true] ∧
      dictGet out.pathMap "/Src/P1" = some "/Dst/P1" := by
  obtain ⟨out, hext, hh, hps, hcl, hck, hval⟩ :=
    c10_strict_clash_map_filled_nothing_attached mergeHeap mergeSrcPs
      mergeDstPs [] 1 [2, 3] 9 (defaultName mergeHeap) (defaultName mergeHeap)
      [some "P1", some "P2", some "C1"] [some "C1"]
      ["/Src/P1", "/Src/P2", "/Src/C1"] "/Dst" (by decide) (by decide)
      ⟨some "C1", by decide, by decide⟩ (by decide) (by decide) (by decide)
      (by decide) (by decide)
  refine ⟨out, hext, hh, hcl, ?_⟩
  have hv := hval 1 (by decide) (some "P1") "/Src/P1" (by decide) (by decide)
    (by decide)
  rw [hv]
  decide

/-- C10 (counterexample to the claim as stated): in `occupiedHeap`, after
the strict-clash call (source keys `X`, `Y` against destination child key
`Y`), the non-colliding source node `8` gets the map entry
`/X ↦ /C/X` — but node `6`, a pre-existing descendant of the destination
document (its anonymous parent contributes nothing to paths), already
resolves to exactly `/C/X`: a node DOES exist at the mapped destination
path after the call. -/
theorem c10_mapped_path_already_occupied :
    (xml_elem_extend occupiedHeap occupiedSrcPs occupiedDstPs [] [8, 10] 0
        (defaultName occupiedHeap) (defaultName occupiedHeap) false).map
      (fun out => (out.heap, out.clashList, dictGet out.pathMap "/X")) =
      some (occupiedHeap, [true], some "/C/X") ∧
    defaultName occupiedHeap 8 = some (some "X") ∧
    namesOf (defaultName occupiedHeap) (getN occupiedHeap 0).children =
      some [some "Y"] ∧
    (6 : Nat) ∈ descendants occupiedHeap occupiedHeap.length 3 ∧
    xml_elem_get_abs_path occupiedHeap occupiedDstPs 6 = some "/C/X" :=
  ⟨by decide, by decide, by decide, by decide, by decide⟩

theorem xml_elem_extend_state_shape (h : Heap) (srcPs dstPs : Parents)
    (clashes : ClashList) (src : List Nat) (dst : Nat)
    (sName dName : Nat → Option (Option String)) (g : Bool) (out : ExtendOut)
    (hout : xml_elem_extend h srcPs dstPs clashes src dst sName dName g =
      some out) :
    (out.heap = h ∧ out.dstParents = dstPs) ∨
    (∃ l, out.heap = (appendChildren h dstPs dst l).1 ∧
      out.dstParents = (appendChildren h dstPs dst l).2) := by
  simp only [xml_elem_extend] at hout
  split at hout
  · exact absurd hout (by simp)
  · split at hout
    · split at hout
      · have he := (Option.some.injEq _ _).mp hout
        subst he
        exact Or.inr ⟨src, rfl, rfl⟩
      · split at hout
        · exact absurd hout (by simp)
        · split at hout
          · exact absurd hout (by simp)
          · split at hout
            · split at hout
              · have he := (Option.some.injEq _ _).mp hout
                subst he
                exact Or.inr ⟨_, rfl, rfl⟩
              · have he := (Option.some.injEq _ _).mp hout
                subst he
                exact Or.inl ⟨rfl, rfl⟩
            · exact absurd hout (by simp)
    · exact absurd hout (by simp)

/-! ## C9 — the parent-index invariant -/

theorem ParentIndexOK_appendChildren (h : Heap) (ps : Parents) (elem : Nat)
    (ids : List Nat) (helem : elem < h.length) (hok : ParentIndexOK h ps) :
    ParentIndexOK (appendChildren h ps elem ids).1
      (appendChildren h ps elem ids).2 := by
  intro c p hcp
  by_cases hc : c ∈ ids
  · rw [pget_appendChildren_mem h ps elem ids c hc] at hcp
    have hpe : p = elem := by simpa using hcp.symm
    subst hpe
    rw [congrArg XmlNode.children (getN_appendChildren_self h ps p ids helem)]
    exact List.mem_append_right _ hc
  · rw [pget_appendChildren_not_mem h ps elem ids c hc] at hcp
    have hmem := hok c p hcp
    by_cases hpe : p = elem
    · subst hpe
      rw [congrArg XmlNode.children (getN_appendChildren_self h ps p ids helem)]
      exact List.mem_append_left _ hmem
    · rw [getN_appendChildren_ne h ps elem ids p (fun he => hpe he.symm)]
      exact hmem

theorem xml_elem_append_single_plain (h : Heap) (elem i : Nat) (ps : Parents)
    (hps : isPseudoContainer (getN h i) = false) :
    xml_elem_append h elem (.single i) ps = appendChildren h ps elem [i] := by
  simp [xml_elem_append, hps, appendChildren]

theorem xml_elem_append_single_pseudo (h : Heap) (elem i : Nat) (ps : Parents)
    (hps : isPseudoContainer (getN h i) = true) :
    xml_elem_append h elem (.single i) ps =
      appendChildren h ps elem (getN h i).children := by
  simp [xml_elem_append, hps]

theorem ParentIndexOK_xml_elem_append (h : Heap) (ps : Parents) (elem : Nat)
    (child : ChildArg) (helem : elem < h.length) (hok : ParentIndexOK h ps) :
    ParentIndexOK (xml_elem_append h elem child ps).1
      (xml_elem_append h elem child ps).2 := by
  cases child with
  | listArg l =>
    rw [xml_elem_append_listArg]
    exact ParentIndexOK_appendChildren h ps elem l helem hok
  | single i =>
    cases hps : isPseudoContainer (getN h i) with
    | true =>
      rw [xml_elem_append_single_pseudo h elem i ps hps]
      exact ParentIndexOK_appendChildren h ps elem _ helem hok
    | false =>
      rw [xml_elem_append_single_plain h elem i ps hps]
      exact ParentIndexOK_appendChildren h ps elem _ helem hok

theorem mem_pyInsertIdx_self (l : List Nat) (i : Int) (x : Nat) :
    x ∈ pyInsertIdx l i x := by
  unfold pyInsertIdx
  exact List.mem_append_left _ (List.mem_append_right _ (List.mem_cons_self _ _))

theorem mem_pyInsertIdx_of_mem (l : List Nat) (i : Int) (x y : Nat)
    (hy : y ∈ l) : y ∈ pyInsertIdx l i x := by
  unfold pyInsertIdx
  have hsplit : y ∈ l.take (pyInsertPos l i) ++ l.drop (pyInsertPos l i) := by
    rw [List.take_append_drop]
    exact hy
  rcases List.mem_append.mp hsplit with h1 | h1
  · exact List.mem_append_left _ (List.mem_append_left _ h1)
  · exact List.mem_append_right _ h1

theorem ParentIndexOK_append_at_index (h : Heap) (ps : Parents) (elem : Nat)
    (child : ChildArg) (index : Int) (st2 : Heap × Parents)
    (helem : elem < h.length) (hok : ParentIndexOK h ps)
    (hsome : xml_elem_append_at_index h elem child index ps = some st2) :
    ParentIndexOK st2.1 st2.2 := by
  cases child with
  | listArg l => simp [xml_elem_append_at_index] at hsome
  | single i =>
    cases hps : isPseudoContainer (getN h i) with
    | true => simp [xml_elem_append_at_index, hps] at hsome
    | false =>
      simp only [xml_elem_append_at_index, hps, Bool.false_eq_true,
        if_false] at hsome
      have heq := (Option.some.injEq _ _).mp hsome
      subst heq
      intro c p hcp
      by_cases hc : c = i
      · subst hc
        rw [pget_pset_self] at hcp
        have hpe : elem = p := by simpa using hcp
        rw [← hpe]
        show c ∈ (getN (insertChild h elem index c) elem).children
        rw [insertChild, congrArg XmlNode.children (getN_setN_self h elem _ helem)]
        exact mem_pyInsertIdx_self _ _ _
      · rw [pget_pset_ne ps i elem c hc] at hcp
        have hmem := hok c p hcp
        by_cases hpe : p = elem
        · subst hpe
          show c ∈ (getN (insertChild h p index i) p).children
          rw [insertChild, congrArg XmlNode.children (getN_setN_self h p _ helem)]
          exact mem_pyInsertIdx_of_mem _ _ _ _ hmem
        · show c ∈ (getN (insertChild h elem index i) p).children
          rw [insertChild, getN_setN_ne h elem p _ (fun he => hpe he.symm)]
          exact hmem

theorem applyOp_length (st : Heap × Parents) (op : EngineOp) :
    (applyOp st op).1.length = st.1.length := by
  cases op with
  | appendOp elem child =>
    show ((xml_elem_append st.1 elem child st.2).1).length = st.1.length
    cases child with
    | listArg l =>
      rw [xml_elem_append_listArg]
      exact appendChildren_length _ _ _ _
    | single i =>
      cases hps : isPseudoContainer (getN st.1 i) with
      | true =>
        rw [xml_elem_append_single_pseudo _ _ _ _ hps]
        exact appendChildren_length _ _ _ _
      | false =>
        rw [xml_elem_append_single_plain _ _ _ _ hps]
        exact appendChildren_length _ _ _ _
  | appendAtIndexOp elem child idx =>
    cases hres : xml_elem_append_at_index st.1 elem child idx st.2 with
    | none => simp [applyOp, hres]
    | some st2 =>
      simp only [applyOp, hres]
      cases child with
      | listArg l => simp [xml_elem_append_at_index] at hres
      | single i =>
        cases hps : isPseudoContainer (getN st.1 i) with
        | true => simp [xml_elem_append_at_index, hps] at hres
        | false =>
          simp only [xml_elem_append_at_index, hps, Bool.false_eq_true,
            if_false] at hres
          have heq := (Option.some.injEq _ _).mp hres
          rw [← heq]
          show (insertChild st.1 elem idx i).length = st.1.length
          rw [insertChild]
          exact length_setN _ _ _
  | extendOp srcPs src dst sN dN g =>
    cases hres : xml_elem_extend st.1 srcPs st.2 [] src dst sN dN g with
    | none => simp [applyOp, hres]
    | some out =>
      simp only [applyOp, hres]
      rcases xml_elem_extend_state_shape st.1 srcPs st.2 [] src dst sN dN g out
        hres with ⟨hh, _⟩ | ⟨l, hh, _⟩
      · rw [hh]
      · show out.heap.length = st.1.length
        rw [hh]
        exact appendChildren_length _ _ _ _

theorem ParentIndexOK_applyOp (st : Heap × Parents) (op : EngineOp)
    (hok : ParentIndexOK st.1 st.2) (hv : opValid st.1.length op) :
    ParentIndexOK (applyOp st op).1 (applyOp st op).2 := by
  cases op with
  | appendOp elem child =>
    exact ParentIndexOK_xml_elem_append st.1 st.2 elem child hv hok
  | appendAtIndexOp elem child idx =>
    cases hres : xml_elem_append_at_index st.1 elem child idx st.2 with
    | none =>
      simp only [applyOp, hres]
      exact hok
    | some st2 =>
      simp only [applyOp, hres]
      exact ParentIndexOK_append_at_index st.1 st.2 elem child idx st2 hv hok hres
  | extendOp srcPs src dst sN dN g =>
    cases hres : xml_elem_extend st.1 srcPs st.2 [] src dst sN dN g with
    | none =>
      simp only [applyOp, hres]
      exact hok
    | some out =>
      simp only [applyOp, hres]
      rcases xml_elem_extend_state_shape st.1 srcPs st.2 [] src dst sN dN g out
        hres with ⟨hh, hp⟩ | ⟨l, hh, hp⟩
      · show ParentIndexOK out.heap out.dstParents
        rw [hh, hp]
        exact hok
      · show ParentIndexOK out.heap out.dstParents
        rw [hh, hp]
        exact ParentIndexOK_appendChildren st.1 st.2 dst l hv hok

/-- C9: the parent-index invariant — every entry points from a node to an
element that actually lists it among its children — is preserved by every
sequence of engine operations (attach, indexed attach, merge) whose target
containers are live objects; so for every node attached through those
operations, the parent index maps it to its actual parent (the entry
written by the attach satisfies exactly this, and no later engine
operation invalidates it). -/
theorem c9_engine_ops_preserve_parent_index (ops : List EngineOp)
    (st : Heap × Parents)
    (hok : ParentIndexOK st.1 st.2)
    (hv : ∀ op ∈ ops, opValid st.1.length op) :
    ParentIndexOK (ops.foldl applyOp st).1 (ops.foldl applyOp st).2 := by
  induction ops generalizing st with
  | nil => exact hok
  | cons op ops ih =>
    rw [List.foldl_cons]
    apply ih (applyOp st op)
      (ParentIndexOK_applyOp st op hok (hv op (List.mem_cons_self _ _)))
    intro op2 hop2
    rw [applyOp_length st op]
    exact hv op2 (List.mem_cons_of_mem _ hop2)

/-- C9 witness: splicing the pseudo-container and then an indexed attach
on `attachHeap`, starting from the empty parent index. -/
theorem c9_engine_ops_preserve_parent_index_witness :
    ParentIndexOK
      (([EngineOp.appendOp 0 (.single 1),
         EngineOp.appendAtIndexOp 0 (.single 4) 0]).foldl applyOp
        (attachHeap, [])).1
      (([EngineOp.appendOp 0 (.single 1),
         EngineOp.appendAtIndexOp 0 (.single 4) 0]).foldl applyOp
        (attachHeap, [])).2 :=
  c9_engine_ops_preserve_parent_index _ (attachHeap, [])
    (fun c p hcp => by simp [pget] at hcp)
    (fun op hop => by
      rcases List.mem_cons.mp hop with rfl | hop2
      · show (0 : Nat) < attachHeap.length
        decide
      · rcases List.mem_cons.mp hop2 with rfl | hop3
        · show (0 : Nat) < attachHeap.length
          decide
        · exact absurd hop3 (List.not_mem_nil _))
